import Mathlib

/-!
Verification development for a small OS kernel core consisting of a per-CPU
physical page allocator (`kernel/kalloc.c`) and a sharded, LRU-evicting disk
buffer cache (`kernel/bio.c`).

The C code is shallowly embedded: each C function becomes an executable Lean
function over explicit state; machine unsigned integers are modelled as `Int`
reduced modulo `2^32` where wraparound matters; fatal `panic` paths are
modelled as `none`/`Option` results.
-/

namespace MitOS

/-! ## Common constants -/

/-- Page size in bytes (`PGSIZE` from `riscv.h`). -/
def PGSIZE : Nat := 4096

/-- Modulus of a 32-bit unsigned machine integer (`uint`). -/
def UINT_MOD : Int := 4294967296

/-! ## Page allocator (`kernel/kalloc.c`)

State: one free list per CPU (`kmem.freelist_CPU[NCPU]`), plus a byte view of
physical memory used to model the `memset` junk fills.  Page addresses are
`Nat`.  The constants `end` (first address after the kernel) and `PHYSTOP`
come from the linker script and `memlayout.h`, which are outside this
repository's sources, so they are parameters of the model. -/

/-- The diagnostic byte `kfree` writes over a freed page (`memset(pa, 1, PGSIZE)`). -/
def kfreeFillByte : Nat := 1

/-- The diagnostic byte `kalloc` writes over an allocated page (`memset(r, 5, PGSIZE)`). -/
def kallocFillByte : Nat := 5

/-- Overwrite the `PGSIZE` bytes starting at `pa` with byte `pat` (models `memset`). -/
def memsetPage (m : Nat → Nat) (pa pat : Nat) : Nat → Nat :=
  fun a => if pa ≤ a ∧ a < pa + PGSIZE then pat else m a

/-- Allocator state: per-CPU free lists (`kmem.freelist_CPU`) and the byte
contents of physical memory. -/
structure Kmem where
  freelists : List (List Nat)
  mem : Nat → Nat

/-- `kfree(pa)` on CPU `cpu`: panics (`none`) unless `pa` is page-aligned and
inside the managed range `[kend, phystop)`; otherwise fills the page with the
junk byte and pushes it on the freeing CPU's local free list. -/
def kfree (kend phystop : Nat) (cpu : Nat) (pa : Nat) (k : Kmem) : Option Kmem :=
  if pa % PGSIZE ≠ 0 ∨ pa < kend ∨ phystop ≤ pa then
    none
  else
    some { freelists := k.freelists.set cpu (pa :: k.freelists.getD cpu []),
           mem := memsetPage k.mem pa kfreeFillByte }

/-- The steal loop of `kalloc`: for each CPU index in `is` (the code iterates
`i = 0 .. NCPU-1`), skip the calling CPU, and pop the head of the first
non-empty foreign free list. -/
def stealFrom (cpu : Nat) (ls : List (List Nat)) : List Nat → Option (Nat × List (List Nat))
  | [] => none
  | i :: is =>
    if i = cpu then stealFrom cpu ls is
    else
      match ls.getD i [] with
      | [] => stealFrom cpu ls is
      | r :: rest => some (r, ls.set i rest)

/-- `kalloc()` on CPU `cpu`: pop the local free list; if it is empty, steal
one page from the first non-empty foreign list; fill any returned page with
the junk byte.  Returns `(none, k)` when every list is empty. -/
def kalloc (cpu : Nat) (k : Kmem) : Option Nat × Kmem :=
  match k.freelists.getD cpu [] with
  | r :: rest =>
    (some r, { freelists := k.freelists.set cpu rest,
               mem := memsetPage k.mem r kallocFillByte })
  | [] =>
    match stealFrom cpu k.freelists (List.range k.freelists.length) with
    | none => (none, k)
    | some (r, ls') =>
      (some r, { freelists := ls', mem := memsetPage k.mem r kallocFillByte })

/-- Spec-side description of the steal scan: the first index `j ≠ cpu` (in
increasing order) whose free list is non-empty. -/
def firstNonemptyOther (cpu : Nat) (ls : List (List Nat)) : Option Nat :=
  (List.range ls.length).find? (fun j => j != cpu && ! (ls.getD j []).isEmpty)

theorem stealFrom_eq_find (cpu : Nat) (ls : List (List Nat)) (is : List Nat) :
    stealFrom cpu ls is =
      (is.find? (fun j => j != cpu && ! (ls.getD j []).isEmpty)).bind fun j =>
        ((ls.getD j []).head?).map fun r => (r, ls.set j (ls.getD j []).tail) := by
  induction is with
  | nil => rfl
  | cons i is ih =>
    rw [stealFrom]
    by_cases hic : i = cpu
    · rw [if_pos hic, List.find?_cons_of_neg _ (by simp [hic])]
      exact ih
    · rw [if_neg hic]
      rcases h : ls.getD i [] with _ | ⟨r, rest⟩
      · rw [List.find?_cons_of_neg _ (by rw [h]; simp)]
        exact ih
      · rw [List.find?_cons_of_pos _ (by rw [h]; simp [hic]), Option.some_bind, h]
        rfl

theorem stealFrom_none_iff (cpu : Nat) (ls : List (List Nat)) :
    stealFrom cpu ls (List.range ls.length) = none ↔
      ∀ j < ls.length, j ≠ cpu → ls.getD j [] = [] := by
  rw [stealFrom_eq_find]
  constructor
  · intro h j hj hjc
    rcases hl : ls.getD j [] with _ | ⟨r, rest⟩
    · rfl
    · exfalso
      rcases hfind : (List.range ls.length).find?
          (fun j => j != cpu && ! (ls.getD j []).isEmpty) with _ | j'
      · have hnp := List.find?_eq_none.mp hfind j (List.mem_range.mpr hj)
        exact hnp (by rw [hl]; simp [hjc])
      · rw [hfind, Option.some_bind] at h
        have hm := List.find?_some hfind
        rcases hl' : ls.getD j' [] with _ | ⟨r', rest'⟩
        · rw [hl'] at hm; simp at hm
        · rw [hl'] at h; simp at h
  · intro h
    rcases hfind : (List.range ls.length).find?
        (fun j => j != cpu && ! (ls.getD j []).isEmpty) with _ | j'
    · rfl
    · exfalso
      have hm := List.find?_some hfind
      have hj' : j' < ls.length := List.mem_range.mp (List.mem_of_find?_eq_some hfind)
      have hne : j' ≠ cpu := by
        intro hc; subst hc; simp at hm
      have hnil := h j' hj' hne
      rw [hnil] at hm
      simp at hm

theorem stealFrom_spec (cpu : Nat) (ls : List (List Nat)) (j : Nat)
    (hfind : firstNonemptyOther cpu ls = some j) (r : Nat) (rest : List Nat)
    (hj : ls.getD j [] = r :: rest) :
    stealFrom cpu ls (List.range ls.length) = some (r, ls.set j rest) := by
  rw [stealFrom_eq_find]
  unfold firstNonemptyOther at hfind
  rw [hfind, Option.some_bind, hj]
  rfl

/-- C4: `kalloc` pops the local free list when non-empty; when it is empty it
removes one page from the first non-empty foreign list in index order; and it
returns `none` exactly when every per-CPU list is empty. -/
theorem kalloc_correct (cpu : Nat) (k : Kmem) (hcpu : cpu < k.freelists.length) :
    ((kalloc cpu k).1 = none ↔ ∀ l ∈ k.freelists, l = []) ∧
    (∀ r rest, k.freelists.getD cpu [] = r :: rest →
      (kalloc cpu k).1 = some r ∧
      (kalloc cpu k).2.freelists = k.freelists.set cpu rest) ∧
    (k.freelists.getD cpu [] = [] →
      ∀ j r rest, firstNonemptyOther cpu k.freelists = some j →
        k.freelists.getD j [] = r :: rest →
        (kalloc cpu k).1 = some r ∧
        (kalloc cpu k).2.freelists = k.freelists.set j rest) := by
  refine ⟨?_, ?_, ?_⟩
  · constructor
    · intro h l hl
      rcases List.mem_iff_getElem.mp hl with ⟨j, hj, rfl⟩
      rcases hloc : k.freelists.getD cpu [] with _ | ⟨r, rest⟩
      · unfold kalloc at h
        rw [hloc] at h
        rcases hsteal : stealFrom cpu k.freelists (List.range k.freelists.length)
          with _ | ⟨r, ls'⟩
        · have hall := (stealFrom_none_iff cpu k.freelists).mp hsteal
          by_cases hjc : j = cpu
          · rw [← List.getD_eq_getElem _ _ hj, hjc]
            exact hloc
          · rw [← List.getD_eq_getElem _ _ hj]
            exact hall j hj hjc
        · rw [hsteal] at h; simp at h
      · unfold kalloc at h
        rw [hloc] at h
        simp at h
    · intro h
      unfold kalloc
      rcases hloc : k.freelists.getD cpu [] with _ | ⟨r, rest⟩
      · have hnone : stealFrom cpu k.freelists (List.range k.freelists.length) = none := by
          apply (stealFrom_none_iff cpu k.freelists).mpr
          intro j hj hjc
          rw [List.getD_eq_getElem _ _ hj]
          exact h _ (List.getElem_mem hj)
        rw [hnone]
      · exfalso
        have hnil := h _ (List.getElem_mem hcpu)
        rw [List.getD_eq_getElem _ _ hcpu, hnil] at hloc
        simp at hloc
  · intro r rest hloc
    unfold kalloc
    rw [hloc]
    exact ⟨rfl, rfl⟩
  · intro hloc j r rest hfind hj
    unfold kalloc
    rw [hloc, stealFrom_spec cpu k.freelists j hfind r rest hj]
    exact ⟨rfl, rfl⟩

/-- Closed witness for `kalloc_correct`: a two-CPU state where CPU 0's pool is
empty and CPU 1's pool holds pages 4096, 8192, 12288; the steal succeeds. -/
theorem kalloc_correct_witness :
    (0 : Nat) < (Kmem.mk [[], [4096, 8192, 12288]] (fun _ => 0)).freelists.length ∧
    ((kalloc 0 (Kmem.mk [[], [4096, 8192, 12288]] (fun _ => 0))).1 = some 4096 ∧
      (kalloc 0 (Kmem.mk [[], [4096, 8192, 12288]] (fun _ => 0))).2.freelists =
        [[], [8192, 12288]]) := by
  have h := kalloc_correct 0 (Kmem.mk [[], [4096, 8192, 12288]] (fun _ => 0))
    (by decide)
  refine ⟨by decide, ?_⟩
  have h3 := h.2.2 (by rfl) 1 4096 [8192, 12288] (by rfl) (by rfl)
  exact ⟨h3.1, h3.2⟩

/-- C5: `kfree` panics exactly when the address is misaligned or outside the
managed range `[kend, phystop)`; otherwise it overwrites every byte of the
page with the free-fill byte (distinct from the allocation-fill byte), leaves
other memory untouched, and pushes the page on the freeing CPU's list. -/
theorem kfree_correct (kend phystop cpu pa : Nat) (k : Kmem) :
    (kfree kend phystop cpu pa k = none ↔
      (pa % PGSIZE ≠ 0 ∨ pa < kend ∨ phystop ≤ pa)) ∧
    (∀ k', kfree kend phystop cpu pa k = some k' →
      (∀ a, pa ≤ a → a < pa + PGSIZE → k'.mem a = kfreeFillByte) ∧
      kfreeFillByte ≠ kallocFillByte ∧
      k'.freelists = k.freelists.set cpu (pa :: k.freelists.getD cpu []) ∧
      (∀ a, a < pa ∨ pa + PGSIZE ≤ a → k'.mem a = k.mem a)) := by
  constructor
  · unfold kfree
    by_cases h : pa % PGSIZE ≠ 0 ∨ pa < kend ∨ phystop ≤ pa
    · simp [h]
    · simp [h]
  · intro k' hk'
    unfold kfree at hk'
    by_cases h : pa % PGSIZE ≠ 0 ∨ pa < kend ∨ phystop ≤ pa
    · rw [if_pos h] at hk'; exact absurd hk' (by simp)
    · rw [if_neg h] at hk'
      have hk'' := Option.some.inj hk'
      subst hk''
      refine ⟨?_, by decide, rfl, ?_⟩
      · intro a h1 h2
        simp [memsetPage, h1, h2]
      · intro a ha
        have : ¬ (pa ≤ a ∧ a < pa + PGSIZE) := by omega
        simp [memsetPage, this]

/-- Closed witness for `kfree_correct`: freeing aligned page 8192 on CPU 0
with managed range `[4096, 65536)` succeeds and links it locally. -/
theorem kfree_correct_witness :
    (∀ k', kfree 4096 65536 0 8192 (Kmem.mk [[], []] (fun _ => 0)) = some k' →
      (∀ a, 8192 ≤ a → a < 8192 + PGSIZE → k'.mem a = kfreeFillByte) ∧
      kfreeFillByte ≠ kallocFillByte ∧
      k'.freelists = [[8192], []] ∧
      (∀ a, a < 8192 ∨ 8192 + PGSIZE ≤ a → k'.mem a = (fun _ => 0 : Nat → Nat) a)) := by
  intro k' hk'
  have h := (kfree_correct 4096 65536 0 8192 (Kmem.mk [[], []] (fun _ => 0))).2 k' hk'
  exact ⟨h.1, h.2.1, h.2.2.1, h.2.2.2⟩

/-! ## Buffer cache (`kernel/bio.c`)

State: a fixed pool of buffers (`bcache.buf[NBUF]`), `BUCKET_SIZE` hash-bucket
recency lists threaded through `prev`/`next` (modelled as lists of buffer
indices, list head = `head.next` = most recently used), the global `ticks`
counter, and the disk contents reached through `virtio_disk_rw`.  The
per-buffer sleep lock is modelled by its current owner (a thread id), and the
operations are serialized atomic steps: an operation that would sleep on a
held lock is simply not enabled, and a `panic` is a `none` result.  `NBUF`
(from `param.h`, not among the sources) is left as a parameter of `binit`;
`uint` fields (`refcnt`) are `Int` values reduced mod `2^32` at each update. -/

/-- `BUCKET_SIZE` from `bio.c`: number of hash buckets (shards). -/
def BUCKET_SIZE : Nat := 13

/-- One `struct buf`: identity, validity, reference count (`uint`), last-used
tick stamp, data payload (abstracted to one value), and sleep-lock owner. -/
structure Buf where
  dev : Nat
  blockno : Nat
  valid : Bool
  refcnt : Int
  used_tick : Nat
  data : Nat
  holder : Option Nat
deriving DecidableEq, Repr

instance : Inhabited Buf := ⟨⟨0, 0, false, 0, 0, 0, none⟩⟩

/-- The whole `bcache` plus the external tick counter and the disk. -/
structure BCache where
  bufs : List Buf
  buckets : List (List Nat)
  ticks : Nat
  disk : Nat → Nat → Nat

/-- The buffer at pool index `i` (out-of-range reads give the all-zero buffer,
matching the zero-initialized global array before `binit` touches it). -/
def bufAt (s : BCache) (i : Nat) : Buf := s.bufs.getD i default

/-- `binit`: all buffers zero-initialized; buffer `i` is linked at the head of
bucket `i % BUCKET_SIZE`, so each bucket holds its indices in decreasing
order; `ticks` starts at 0. -/
def binit (nbuf : Nat) : BCache :=
  { bufs := List.replicate nbuf default,
    buckets := (List.range BUCKET_SIZE).map
      (fun k => ((List.range nbuf).filter (fun i => i % BUCKET_SIZE == k)).reverse),
    ticks := 0,
    disk := fun _ _ => 0 }

/-- Replace the buffer at pool index `i`. -/
def setBuf (s : BCache) (i : Nat) (b : Buf) : BCache := { s with bufs := s.bufs.set i b }

/-- The hit scan of `bget`: first buffer in the home bucket whose `dev` and
`blockno` match. -/
def findMatch (s : BCache) (dev blockno : Nat) : Option Nat :=
  (s.buckets.getD (blockno % BUCKET_SIZE) []).find?
    (fun i => (bufAt s i).dev == dev && (bufAt s i).blockno == blockno)

/-- One iteration of the eviction scan's inner loop (bio.c lines 96-101):
`if(b->refcnt == 0 && (temp_tick == 0 || b->used_tick < temp_tick))` update
the remembered victim `temp` and its tick `temp_tick`. -/
def scanStep (bufs : Nat → Buf) (acc : Option Nat × Nat) (i : Nat) : Option Nat × Nat :=
  if (bufs i).refcnt = 0 ∧ (acc.2 = 0 ∨ (bufs i).used_tick < acc.2) then
    (some i, (bufs i).used_tick)
  else acc

/-- The inner loop of the eviction scan over one bucket's list. -/
def scanBucket (bufs : Nat → Buf) (acc : Option Nat × Nat) (ids : List Nat) :
    Option Nat × Nat :=
  ids.foldl (scanStep bufs) acc

/-- The outer eviction loop (bio.c lines 90-128) over bucket offsets `is`:
visit bucket `(cur + i) % BUCKET_SIZE`, scan it, and commit to the remembered
victim at the end of the first bucket after which one exists, returning the
victim together with the bucket it was found in. -/
def evictFind (bufs : Nat → Buf) (buckets : List (List Nat)) (cur : Nat) :
    List Nat → Option Nat × Nat → Option (Nat × Nat)
  | [], _ => none
  | i :: is, acc =>
    let bucket := (cur + i) % BUCKET_SIZE
    let acc' := scanBucket bufs acc (buckets.getD bucket [])
    match acc'.1 with
    | some v => some (v, bucket)
    | none => evictFind bufs buckets cur is acc'

/-- The full eviction scan of a `bget` miss, starting at the home bucket. -/
def evictScan (bufs : Nat → Buf) (buckets : List (List Nat)) (cur : Nat) :
    Option (Nat × Nat) :=
  evictFind bufs buckets cur (List.range BUCKET_SIZE) (none, 0)

/-- The victim relink of `bget`'s miss path (bio.c lines 103-111): when the
victim was found in a bucket other than the home bucket, unlink it there and
link it at the head of the home bucket; a victim already in the home bucket
stays in place. -/
def evictRelink (buckets : List (List Nat)) (v vb cur : Nat) : List (List Nat) :=
  if vb = cur then buckets
  else
    let b1 := buckets.set vb ((buckets.getD vb []).filter (fun x => x != v))
    b1.set cur (v :: b1.getD cur [])

/-- `bget(dev, blockno)` by thread `tid`: on a hit, bump the reference count,
stamp the tick and take the sleep lock; on a miss, run the eviction scan,
move the victim to the head of the home bucket if it came from another
bucket, repurpose its identity, and return it locked. `none` is the
`panic("bget: no buffers")` path. -/
def bget (tid dev blockno : Nat) (s : BCache) : Option (Nat × BCache) :=
  match findMatch s dev blockno with
  | some i =>
    some (i, setBuf s i ({ bufAt s i with
      refcnt := ((bufAt s i).refcnt + 1) % UINT_MOD,
      used_tick := s.ticks, holder := some tid }))
  | none =>
    match evictScan (bufAt s) s.buckets (blockno % BUCKET_SIZE) with
    | none => none
    | some (v, vb) =>
      some (v, { setBuf s v ({ bufAt s v with
        dev := dev, blockno := blockno, valid := false,
        refcnt := 1, used_tick := s.ticks, holder := some tid }) with
        buckets := evictRelink s.buckets v vb (blockno % BUCKET_SIZE) })

/-- The `if(!b->valid)` body of `bread`: populate the buffer from the disk
and mark it valid; a no-op on an already-valid buffer. -/
def breadFill (dev blockno i : Nat) (s1 : BCache) : BCache :=
  if (bufAt s1 i).valid then s1
  else setBuf s1 i ({ bufAt s1 i with data := s1.disk dev blockno, valid := true })

/-- `bread`: `bget`, then a device read and validation if the buffer was
invalid, then a fresh tick stamp. -/
def bread (tid dev blockno : Nat) (s : BCache) : Option (Nat × BCache) :=
  match bget tid dev blockno s with
  | none => none
  | some (i, s1) =>
    let s2 := breadFill dev blockno i s1
    some (i, setBuf s2 i ({ bufAt s2 i with used_tick := s2.ticks }))

/-- `bwrite`: panic unless the caller holds the sleep lock; otherwise write
the buffer's data to disk, changing nothing else. -/
def bwrite (tid i : Nat) (s : BCache) : Option BCache :=
  if (bufAt s i).holder = some tid then
    some { s with disk :=
      (fun d bl =>
        if d = (bufAt s i).dev ∧ bl = (bufAt s i).blockno then (bufAt s i).data
        else s.disk d bl) }
  else none

/-- The unlink/relink of `brelse` (bio.c lines 177-182): unlink the buffer
from wherever it is linked (the pointer surgery `b->next->prev = b->prev;
b->prev->next = b->next`) and link it at the head of bucket `k`. -/
def moveToFront (buckets : List (List Nat)) (i k : Nat) : List (List Nat) :=
  let b1 := buckets.map (fun l => l.filter (fun x => x != i))
  b1.set k (i :: b1.getD k [])

/-- `brelse`: panic unless the caller holds the sleep lock; otherwise release
it, decrement the reference count, stamp the tick, and if the count reached
zero move the buffer to the head of its home bucket's recency list. -/
def brelse (tid i : Nat) (s : BCache) : Option BCache :=
  if (bufAt s i).holder = some tid then
    let b := bufAt s i
    let r' := (b.refcnt - 1) % UINT_MOD
    some { setBuf s i ({ b with holder := none, refcnt := r', used_tick := s.ticks }) with
           buckets := if r' = 0 then moveToFront s.buckets i (b.blockno % BUCKET_SIZE)
                      else s.buckets }
  else none

/-- Replace only the reference count of a buffer. -/
def setRefcnt (b : Buf) (r : Int) : Buf := { b with refcnt := r }

/-- `bpin`: bump the reference count under the home bucket lock. -/
def bpin (i : Nat) (s : BCache) : BCache :=
  setBuf s i (setRefcnt (bufAt s i) (((bufAt s i).refcnt + 1) % UINT_MOD))

/-- `bunpin`: drop the reference count under the home bucket lock. -/
def bunpin (i : Nat) (s : BCache) : BCache :=
  setBuf s i (setRefcnt (bufAt s i) (((bufAt s i).refcnt - 1) % UINT_MOD))

/-- Serialized operational semantics: one atomic public cache operation (or an
external tick increment).  An operation that would sleep on a held sleep lock
is not enabled; a panicking operation has no successor state. -/
inductive Step : BCache → BCache → Prop where
  | get (tid dev blockno i : Nat) (s s' : BCache) :
      bget tid dev blockno s = some (i, s') → (bufAt s i).holder = none → Step s s'
  | read (tid dev blockno i : Nat) (s s' : BCache) :
      bread tid dev blockno s = some (i, s') → (bufAt s i).holder = none → Step s s'
  | write (tid i : Nat) (s s' : BCache) : bwrite tid i s = some s' → Step s s'
  | rel (tid i : Nat) (s s' : BCache) : brelse tid i s = some s' → Step s s'
  | pin (i : Nat) (s : BCache) : i < s.bufs.length → Step s (bpin i s)
  | unpin (i : Nat) (s : BCache) : i < s.bufs.length → Step s (bunpin i s)
  | tick (s : BCache) : Step s { s with ticks := (s.ticks + 1) % 4294967296 }

/-- States reachable from `binit nbuf` by any sequence of public operations. -/
inductive Reachable (nbuf : Nat) : BCache → Prop where
  | init : Reachable nbuf (binit nbuf)
  | step {s s' : BCache} : Reachable nbuf s → Step s s' → Reachable nbuf s'

/-! ### The eviction scan's selection (claim C1) -/

/-- A buffer index is an eviction candidate when its reference count is 0. -/
def isCand (bufs : Nat → Buf) (i : Nat) : Bool := (bufs i).refcnt == 0

/-- The tick of a remembered candidate (`temp_tick`), 0 when there is none. -/
def tkOf (bufs : Nat → Buf) : Option Nat → Nat
  | none => 0
  | some a => (bufs a).used_tick

/-- Spec-side recursion: track, among candidates, the first one carrying the
minimal tick (a strictly smaller tick replaces; ties keep the earlier one). -/
def oldestFrom (bufs : Nat → Buf) : Option Nat → List Nat → Option Nat
  | acc, [] => acc
  | none, i :: ids =>
    if isCand bufs i then oldestFrom bufs (some i) ids
    else oldestFrom bufs none ids
  | some x, i :: ids =>
    if isCand bufs i then
      (if (bufs i).used_tick < (bufs x).used_tick then oldestFrom bufs (some i) ids
       else oldestFrom bufs (some x) ids)
    else oldestFrom bufs (some x) ids

/-- The first candidate with minimal tick in one bucket, ties by scan order. -/
def oldestCand (bufs : Nat → Buf) (ids : List Nat) : Option Nat :=
  oldestFrom bufs none ids

/-- The bucket rotation of the eviction scan, starting at the home bucket. -/
def rotation (cur : Nat) : List Nat :=
  (List.range BUCKET_SIZE).map (fun i => (cur + i) % BUCKET_SIZE)

theorem scanBucket_cons (bufs : Nat → Buf) (acc : Option Nat × Nat) (i : Nat)
    (ids : List Nat) :
    scanBucket bufs acc (i :: ids) = scanBucket bufs (scanStep bufs acc i) ids := rfl

theorem oldestFrom_isSome (bufs : Nat → Buf) (ids : List Nat) (o : Option Nat) :
    (oldestFrom bufs o ids).isSome = (o.isSome || ids.any (isCand bufs)) := by
  induction ids generalizing o with
  | nil => cases o <;> simp [oldestFrom]
  | cons i ids ih =>
    rcases o with _ | x
    · rw [oldestFrom]
      by_cases hc : isCand bufs i = true
      · rw [if_pos hc, ih, List.any_cons, hc]
        simp
      · rw [if_neg hc, ih, List.any_cons]
        rw [Bool.not_eq_true] at hc
        rw [hc]
        simp
    · rw [oldestFrom]
      by_cases hc : isCand bufs i = true
      · rw [if_pos hc]
        by_cases hlt : (bufs i).used_tick < (bufs x).used_tick
        · rw [if_pos hlt, ih]; simp
        · rw [if_neg hlt, ih]; simp
      · rw [if_neg hc, ih]; simp

theorem scanBucket_eq_oldestFrom (bufs : Nat → Buf) (ids : List Nat) (o : Option Nat)
    (hpos : ∀ i ∈ ids, (bufs i).refcnt = 0 → 0 < (bufs i).used_tick)
    (ho : ∀ a, o = some a → 0 < (bufs a).used_tick) :
    scanBucket bufs (o, tkOf bufs o) ids =
      (oldestFrom bufs o ids, tkOf bufs (oldestFrom bufs o ids)) := by
  induction ids generalizing o with
  | nil => cases o <;> rfl
  | cons i ids ih =>
    rw [scanBucket_cons]
    by_cases hc : (bufs i).refcnt = 0
    · have hcand : isCand bufs i = true := by simp [isCand, hc]
      rcases o with _ | x
      · have hstep : scanStep bufs (none, tkOf bufs none) i =
            (some i, (bufs i).used_tick) := by
          simp [scanStep, tkOf, hc]
        rw [hstep, oldestFrom, if_pos hcand]
        exact ih (some i) (fun j hj => hpos j (List.mem_cons_of_mem _ hj))
          (by intro a ha; cases ha; exact hpos i (List.mem_cons_self _ _) hc)
      · have hx : 0 < (bufs x).used_tick := ho x rfl
        by_cases hlt : (bufs i).used_tick < (bufs x).used_tick
        · have hstep : scanStep bufs (some x, tkOf bufs (some x)) i =
              (some i, (bufs i).used_tick) := by
            simp [scanStep, tkOf, hc, hlt]
          rw [hstep, oldestFrom, if_pos hcand, if_pos hlt]
          exact ih (some i) (fun j hj => hpos j (List.mem_cons_of_mem _ hj))
            (by intro a ha; cases ha; exact hpos i (List.mem_cons_self _ _) hc)
        · have hx0 : (bufs x).used_tick ≠ 0 := by omega
          have hstep : scanStep bufs (some x, tkOf bufs (some x)) i =
              (some x, tkOf bufs (some x)) := by
            simp [scanStep, tkOf, hc, hlt, hx0]
          rw [hstep, oldestFrom, if_pos hcand, if_neg hlt]
          exact ih (some x) (fun j hj => hpos j (List.mem_cons_of_mem _ hj)) ho
    · have hcand : ¬ isCand bufs i = true := by simp [isCand, hc]
      have hstep : scanStep bufs (o, tkOf bufs o) i = (o, tkOf bufs o) := by
        simp [scanStep, hc]
      rcases o with _ | x
      · rw [hstep, oldestFrom, if_neg hcand]
        exact ih none (fun j hj => hpos j (List.mem_cons_of_mem _ hj)) ho
      · rw [hstep, oldestFrom, if_neg hcand]
        exact ih (some x) (fun j hj => hpos j (List.mem_cons_of_mem _ hj)) ho

theorem evictFind_eq (bufs : Nat → Buf) (buckets : List (List Nat)) (cur : Nat)
    (hpos : ∀ k, ∀ i ∈ buckets.getD k [], (bufs i).refcnt = 0 → 0 < (bufs i).used_tick) :
    ∀ offs, evictFind bufs buckets cur offs (none, 0) =
      ((offs.map (fun i => (cur + i) % BUCKET_SIZE)).find?
          (fun k => (buckets.getD k []).any (isCand bufs))).bind
        (fun k => (oldestCand bufs (buckets.getD k [])).map (fun v => (v, k))) := by
  intro offs
  induction offs with
  | nil => rfl
  | cons i offs ih =>
    rw [evictFind, List.map_cons]
    have hsb : scanBucket bufs (none, 0) (buckets.getD ((cur + i) % BUCKET_SIZE) []) =
        (oldestCand bufs (buckets.getD ((cur + i) % BUCKET_SIZE) []),
         tkOf bufs (oldestCand bufs (buckets.getD ((cur + i) % BUCKET_SIZE) []))) :=
      scanBucket_eq_oldestFrom bufs _ none (hpos _)
        (fun a ha => Option.noConfusion ha)
    simp only [hsb]
    rcases hold : oldestCand bufs (buckets.getD ((cur + i) % BUCKET_SIZE) []) with _ | v
    · have hany : (buckets.getD ((cur + i) % BUCKET_SIZE) []).any (isCand bufs) = false := by
        have hs := oldestFrom_isSome bufs (buckets.getD ((cur + i) % BUCKET_SIZE) []) none
        rw [show oldestFrom bufs none (buckets.getD ((cur + i) % BUCKET_SIZE) []) =
          oldestCand bufs (buckets.getD ((cur + i) % BUCKET_SIZE) []) from rfl, hold] at hs
        simpa using hs.symm
      simp only [List.find?_cons, hany]
      exact ih
    · have hany : (buckets.getD ((cur + i) % BUCKET_SIZE) []).any (isCand bufs) = true := by
        have hs := oldestFrom_isSome bufs (buckets.getD ((cur + i) % BUCKET_SIZE) []) none
        rw [show oldestFrom bufs none (buckets.getD ((cur + i) % BUCKET_SIZE) []) =
          oldestCand bufs (buckets.getD ((cur + i) % BUCKET_SIZE) []) from rfl, hold] at hs
        simpa using hs.symm
      simp only [List.find?_cons, hany, Option.some_bind, hold, Option.map_some']

/-- C1 (amended): with all candidate ticks positive, the eviction scan of a
miss selects the first zero-refcount buffer of minimal tick *within the first
bucket of the rotation (starting at the home bucket) that contains any
zero-refcount buffer* — not the globally oldest across the whole pool. -/
theorem evictScan_first_bucket_lru (bufs : Nat → Buf) (buckets : List (List Nat)) (cur : Nat)
    (hpos : ∀ l ∈ buckets, ∀ i ∈ l, (bufs i).refcnt = 0 → 0 < (bufs i).used_tick) :
    evictScan bufs buckets cur =
      ((rotation cur).find? (fun k => (buckets.getD k []).any (isCand bufs))).bind
        (fun k => (oldestCand bufs (buckets.getD k [])).map (fun v => (v, k))) := by
  have hpos' : ∀ k, ∀ i ∈ buckets.getD k [], (bufs i).refcnt = 0 → 0 < (bufs i).used_tick := by
    intro k i hi
    by_cases hk : k < buckets.length
    · rw [List.getD_eq_getElem _ _ hk] at hi
      exact hpos _ (List.getElem_mem hk) i hi
    · rw [List.getD_eq_default _ _ (Nat.le_of_not_lt hk)] at hi
      exact absurd hi (List.not_mem_nil i)
  exact evictFind_eq bufs buckets cur hpos' (List.range BUCKET_SIZE)

/-- A concrete two-buffer state: buffer 0 (home bucket 0) has tick 10, buffer
1 (bucket 1) has tick 1; both have reference count 0. -/
def cexState : BCache :=
  { bufs := [{ dev := 0, blockno := 0, valid := true, refcnt := 0,
               used_tick := 10, data := 0, holder := none },
             { dev := 0, blockno := 1, valid := true, refcnt := 0,
               used_tick := 1, data := 0, holder := none }],
    buckets := [[0], [1], [], [], [], [], [], [], [], [], [], [], []],
    ticks := 99,
    disk := fun _ _ => 0 }

/-- C1 (counterexample): `bget(0, 13)` misses (home bucket 0) and evicts
buffer 0 with tick 10, although buffer 1 in the pool has reference count 0
and the strictly older tick 1 — so the victim is not the oldest
zero-reference-count buffer of the entire pool. -/
theorem bget_not_global_lru_cex :
    (bget 0 0 13 cexState).map Prod.fst = some 0 ∧
    (bufAt cexState 1).refcnt = 0 ∧
    (bufAt cexState 1).used_tick < (bufAt cexState 0).used_tick ∧
    1 ∈ cexState.buckets.getD 1 [] := by
  refine ⟨?_, by decide, by decide, by decide⟩
  rfl

/-- Closed witness for `evictScan_first_bucket_lru` at `cexState`, whose
candidate ticks (10 and 1) are positive: the scan commits to bucket 0. -/
theorem evictScan_first_bucket_lru_witness :
    evictScan (bufAt cexState) cexState.buckets 0 =
      ((rotation 0).find?
          (fun k => (cexState.buckets.getD k []).any (isCand (bufAt cexState)))).bind
        (fun k => (oldestCand (bufAt cexState) (cexState.buckets.getD k [])).map
          (fun v => (v, k))) :=
  evictScan_first_bucket_lru (bufAt cexState) cexState.buckets 0 (by decide)

/-! ### The eviction scan's foreign-lock probe (claim C2) -/

/-- Modelled from the spec: the spinlock primitives (`spinlock.c`,
`holding`, `acquire`) are external to these sources.  Per the spec's lock
model, a spinlock's observable state is which core (if any) holds it;
`holding` reports whether the *calling* core is that owner, and `acquire`
busy-waits until the lock is free. -/
def spinHolding (owner : Option Nat) (core : Nat) : Bool := owner == some core

/-- What the eviction scan does at one foreign bucket's lock. -/
inductive ShardProbe where
  | skip
  | blockingAcquire
deriving DecidableEq, Repr

/-- The foreign-shard lock decision of the eviction scan (bio.c line 93):
`if(!holding(&bcache.lock[bucket])) acquire(&bcache.lock[bucket]); else
continue;` — skip the bucket exactly when the calling core already holds its
lock, and otherwise perform a (blocking) `acquire`. -/
def evictShardProbe (owner : Option Nat) (core : Nat) : ShardProbe :=
  if spinHolding owner core then ShardProbe.skip else ShardProbe.blockingAcquire

/-- C2 (counterexample): a shard lock held by core 1 is *not* skipped by core
0's eviction scan: the scan issues a blocking `acquire` on it, contradicting
the claim that any held shard lock is skipped without blocking. -/
theorem evict_probe_blocks_on_foreign_cex :
    evictShardProbe (some 1) 0 = ShardProbe.blockingAcquire ∧
    evictShardProbe (some 1) 0 ≠ ShardProbe.skip ∧
    (some 1 : Option Nat) ≠ none ∧ (1 : Nat) ≠ 0 := by
  decide

/-- C2 (amended): the eviction scan skips a shard's lock exactly when the
current caller itself already holds it; a shard lock held by another core is
met with a blocking `acquire`, not skipped. -/
theorem evict_probe_skips_iff_self_held (owner : Option Nat) (core : Nat) :
    evictShardProbe owner core = ShardProbe.skip ↔ owner = some core := by
  unfold evictShardProbe spinHolding
  by_cases h : owner = some core
  · simp [h]
  · simp [h]

/-! ### Exhaustion panic (claim C3) -/

theorem scanBucket_no_cand (bufs : Nat → Buf) (ids : List Nat)
    (h : ∀ i ∈ ids, (bufs i).refcnt ≠ 0) (acc : Option Nat × Nat) :
    scanBucket bufs acc ids = acc := by
  induction ids generalizing acc with
  | nil => rfl
  | cons i ids ih =>
    rw [scanBucket, List.foldl_cons]
    have hstep : scanStep bufs acc i = acc := by
      simp [scanStep, h i (List.mem_cons_self _ _)]
    rw [hstep]
    exact ih (fun j hj => h j (List.mem_cons_of_mem _ hj)) acc

theorem evictFind_none_of_all_pinned (bufs : Nat → Buf) (buckets : List (List Nat))
    (cur : Nat) (h : ∀ k, ∀ i ∈ buckets.getD k [], (bufs i).refcnt ≠ 0) :
    ∀ offs, evictFind bufs buckets cur offs (none, 0) = none := by
  intro offs
  induction offs with
  | nil => rfl
  | cons i offs ih =>
    rw [evictFind]
    rw [scanBucket_no_cand bufs _ (h _) (none, 0)]
    exact ih

/-- C3: on a `bget` cache miss (no home-bucket match) in a state where every
buffer linked in the pool has a reference count above zero, `bget` hits the
`panic("bget: no buffers")` path and returns no buffer. -/
theorem bget_panics_when_all_pinned (tid dev blockno : Nat) (s : BCache)
    (hmiss : findMatch s dev blockno = none)
    (hpinned : ∀ l ∈ s.buckets, ∀ i ∈ l, 0 < (bufAt s i).refcnt) :
    bget tid dev blockno s = none := by
  have h : ∀ k, ∀ i ∈ s.buckets.getD k [], (bufAt s i).refcnt ≠ 0 := by
    intro k i hi
    by_cases hk : k < s.buckets.length
    · rw [List.getD_eq_getElem _ _ hk] at hi
      have := hpinned _ (List.getElem_mem hk) i hi
      omega
    · rw [List.getD_eq_default _ _ (Nat.le_of_not_lt hk)] at hi
      exact absurd hi (List.not_mem_nil i)
  unfold bget
  rw [hmiss]
  unfold evictScan
  rw [evictFind_none_of_all_pinned (bufAt s) s.buckets _ h]

/-- Closed witness for `bget_panics_when_all_pinned`: a one-buffer pool whose
only buffer is pinned; a `bget` for the absent block (0, 5) panics. -/
theorem bget_panics_when_all_pinned_witness :
    bget 0 0 5 (BCache.mk
      [{ dev := 0, blockno := 0, valid := true, refcnt := 1,
         used_tick := 3, data := 0, holder := none }]
      [[0], [], [], [], [], [], [], [], [], [], [], [], []] 7 (fun _ _ => 0)) = none :=
  bget_panics_when_all_pinned 0 0 5 _ (by decide) (by decide)

/-! ### Pointwise state lemmas -/

theorem bufAt_lt_of_holder (s : BCache) (i tid : Nat)
    (h : (bufAt s i).holder = some tid) : i < s.bufs.length := by
  by_contra hc
  rw [bufAt, List.getD_eq_default _ _ (Nat.le_of_not_lt hc)] at h
  exact Option.noConfusion h

theorem bufAt_setBuf_self (s : BCache) (i : Nat) (b : Buf) (hi : i < s.bufs.length) :
    bufAt (setBuf s i b) i = b := by
  show (s.bufs.set i b).getD i default = b
  rw [List.getD_eq_getElem?_getD, List.getElem?_set_self hi]
  rfl

theorem bufAt_setBuf_ne (s : BCache) (i j : Nat) (b : Buf) (hij : i ≠ j) :
    bufAt (setBuf s i b) j = bufAt s j := by
  show (s.bufs.set i b).getD j default = s.bufs.getD j default
  rw [List.getD_eq_getElem?_getD, List.getElem?_set_ne hij, ← List.getD_eq_getElem?_getD]

theorem bufAt_withBuckets (s : BCache) (bks : List (List Nat)) (i : Nat) :
    bufAt { s with buckets := bks } i = bufAt s i := rfl

/-! ### `brelse` (claim C8) -/

/-- C8: `brelse` panics exactly when the caller does not hold the block's
sleep lock; otherwise it releases the lock, decrements the reference count
(32-bit wrap), re-stamps the tick, leaves identity/validity/data and all
other buffers untouched, and moves the buffer to the head of its home
bucket's recency list exactly when the decremented count is zero. -/
theorem brelse_correct (tid i : Nat) (s : BCache) (hlen : BUCKET_SIZE ≤ s.buckets.length) :
    (brelse tid i s = none ↔ ¬ (bufAt s i).holder = some tid) ∧
    (∀ s', brelse tid i s = some s' →
      (bufAt s' i).holder = none ∧
      (bufAt s' i).refcnt = ((bufAt s i).refcnt - 1) % UINT_MOD ∧
      (bufAt s' i).used_tick = s.ticks ∧
      (bufAt s' i).dev = (bufAt s i).dev ∧
      (bufAt s' i).blockno = (bufAt s i).blockno ∧
      (bufAt s' i).valid = (bufAt s i).valid ∧
      (bufAt s' i).data = (bufAt s i).data ∧
      (∀ j, j ≠ i → bufAt s' j = bufAt s j) ∧
      s'.ticks = s.ticks ∧
      (((bufAt s i).refcnt - 1) % UINT_MOD = 0 →
        s'.buckets = moveToFront s.buckets i ((bufAt s i).blockno % BUCKET_SIZE) ∧
        (s'.buckets.getD ((bufAt s i).blockno % BUCKET_SIZE) []).head? = some i) ∧
      (¬ ((bufAt s i).refcnt - 1) % UINT_MOD = 0 → s'.buckets = s.buckets)) := by
  constructor
  · unfold brelse
    by_cases hh : (bufAt s i).holder = some tid
    · rw [if_pos hh]
      simp [hh]
    · rw [if_neg hh]
      simp [hh]
  · intro s' hs'
    unfold brelse at hs'
    by_cases hh : (bufAt s i).holder = some tid
    · rw [if_pos hh, Option.some.injEq] at hs'
      have hi : i < s.bufs.length := bufAt_lt_of_holder s i tid hh
      subst hs'
      refine ⟨?_, ?_, ?_, ?_, ?_, ?_, ?_, ?_, rfl, ?_, ?_⟩
      · rw [bufAt_withBuckets, bufAt_setBuf_self _ _ _ hi]
      · rw [bufAt_withBuckets, bufAt_setBuf_self _ _ _ hi]
      · rw [bufAt_withBuckets, bufAt_setBuf_self _ _ _ hi]
      · rw [bufAt_withBuckets, bufAt_setBuf_self _ _ _ hi]
      · rw [bufAt_withBuckets, bufAt_setBuf_self _ _ _ hi]
      · rw [bufAt_withBuckets, bufAt_setBuf_self _ _ _ hi]
      · rw [bufAt_withBuckets, bufAt_setBuf_self _ _ _ hi]
      · intro j hj
        rw [bufAt_withBuckets, bufAt_setBuf_ne _ _ _ _ (Ne.symm hj)]
      · intro hr
        constructor
        · show (if ((bufAt s i).refcnt - 1) % UINT_MOD = 0 then _ else _) = _
          rw [if_pos hr]
        · show ((if ((bufAt s i).refcnt - 1) % UINT_MOD = 0 then
              moveToFront s.buckets i ((bufAt s i).blockno % BUCKET_SIZE)
            else s.buckets).getD ((bufAt s i).blockno % BUCKET_SIZE) []).head? = some i
          rw [if_pos hr, moveToFront]
          have hk : (bufAt s i).blockno % BUCKET_SIZE <
              (s.buckets.map (fun l => l.filter (fun x => x != i))).length := by
            rw [List.length_map]
            exact Nat.lt_of_lt_of_le (Nat.mod_lt _ (by decide)) hlen
          rw [List.getD_eq_getElem?_getD, List.getElem?_set_self hk]
          rfl
      · intro hr
        show (if ((bufAt s i).refcnt - 1) % UINT_MOD = 0 then _ else _) = _
        rw [if_neg hr]
    · rw [if_neg hh] at hs'
      exact absurd hs' (by simp)

/-- A one-buffer state whose buffer (block (1,2), home bucket 2, refcnt 1) is
sleep-locked by thread 4. -/
def relState : BCache :=
  { bufs := [{ dev := 1, blockno := 2, valid := true, refcnt := 1,
               used_tick := 5, data := 7, holder := some 4 }],
    buckets := [[], [], [0], [], [], [], [], [], [], [], [], [], []],
    ticks := 42,
    disk := fun _ _ => 0 }

/-- The state after `brelse 4 0 relState`: lock released, refcnt 0, tick
re-stamped, buffer at the head of home bucket 2. -/
def relStateAfter : BCache :=
  { bufs := [{ dev := 1, blockno := 2, valid := true, refcnt := 0,
               used_tick := 42, data := 7, holder := none }],
    buckets := [[], [], [0], [], [], [], [], [], [], [], [], [], []],
    ticks := 42,
    disk := fun _ _ => 0 }

/-- Closed witness for `brelse_correct` at `relState`. -/
theorem brelse_correct_witness :
    BUCKET_SIZE ≤ relState.buckets.length ∧
    (bufAt relStateAfter 0).holder = none ∧
    (relStateAfter.buckets.getD 2 []).head? = some 0 := by
  have h := (brelse_correct 4 0 relState (by decide)).2 relStateAfter (by rfl)
  exact ⟨by decide, h.1, (h.2.2.2.2.2.2.2.2.2.1 (by decide)).2⟩

/-! ### `bwrite` (claim C9) -/

/-- C9: `bwrite` panics exactly when the caller does not hold the buffer's
sleep lock; when held, it writes the buffer's current data to the disk at
the buffer's identity and changes nothing else — no lock release, no
metadata change (the whole buffer pool, bucket lists and tick counter are
untouched, as is every other disk block). -/
theorem bwrite_correct (tid i : Nat) (s : BCache) :
    (bwrite tid i s = none ↔ ¬ (bufAt s i).holder = some tid) ∧
    (∀ s', bwrite tid i s = some s' →
      s'.bufs = s.bufs ∧ s'.buckets = s.buckets ∧ s'.ticks = s.ticks ∧
      s'.disk (bufAt s i).dev (bufAt s i).blockno = (bufAt s i).data ∧
      (∀ d bl, ¬ (d = (bufAt s i).dev ∧ bl = (bufAt s i).blockno) →
        s'.disk d bl = s.disk d bl)) := by
  constructor
  · unfold bwrite
    by_cases hh : (bufAt s i).holder = some tid
    · rw [if_pos hh]
      simp [hh]
    · rw [if_neg hh]
      simp [hh]
  · intro s' hs'
    unfold bwrite at hs'
    by_cases hh : (bufAt s i).holder = some tid
    · rw [if_pos hh, Option.some.injEq] at hs'
      subst hs'
      refine ⟨rfl, rfl, rfl, by simp, ?_⟩
      intro d bl hne
      show (if d = (bufAt s i).dev ∧ bl = (bufAt s i).blockno then _ else _) = _
      rw [if_neg hne]
    · rw [if_neg hh] at hs'
      exact absurd hs' (by simp)

/-- The state after `bwrite 4 0 relState`: only disk block (1,2) changed. -/
def relStateWritten : BCache :=
  { relState with disk := fun d bl => if d = 1 ∧ bl = 2 then 7 else 0 }

/-- Closed witness for `bwrite_correct` at `relState`. -/
theorem bwrite_correct_witness :
    relStateWritten.bufs = relState.bufs ∧
    relStateWritten.ticks = relState.ticks ∧
    relStateWritten.disk 1 2 = 7 := by
  have h := (bwrite_correct 4 0 relState).2 relStateWritten (by rfl)
  exact ⟨h.1, h.2.2.1, h.2.2.2.1⟩

/-! ### `bpin` / `bunpin` (claim C10) -/

/-- Apply a sequence of pin (`true`) / unpin (`false`) calls to buffer `i`. -/
def applyPinOps (i : Nat) : List Bool → BCache → BCache
  | [], s => s
  | b :: l, s => applyPinOps i l (if b then bpin i s else bunpin i s)

/-- The net reference-count effect of a pin/unpin sequence. -/
def pinDelta : List Bool → Int
  | [] => 0
  | b :: l => (if b then 1 else -1) + pinDelta l

theorem pinDelta_eq_counts (l : List Bool) :
    pinDelta l = (l.count true : Int) - (l.count false : Int) := by
  induction l with
  | nil => simp [pinDelta]
  | cons b l ih =>
    cases b
    · rw [pinDelta, ih]
      simp [List.count_cons]
      ring
    · rw [pinDelta, ih]
      simp [List.count_cons]
      ring

theorem setBuf_bufAt_self (s : BCache) (i : Nat) (hi : i < s.bufs.length) :
    setBuf s i (bufAt s i) = s := by
  show ({ s with bufs := s.bufs.set i (bufAt s i) } : BCache) = s
  have hset : s.bufs.set i (bufAt s i) = s.bufs := by
    apply List.ext_getElem?
    intro n
    by_cases hn : n = i
    · subst hn
      rw [List.getElem?_set_self hi, bufAt, List.getD_eq_getElem _ _ hi,
        List.getElem?_eq_getElem hi]
    · rw [List.getElem?_set_ne (Ne.symm hn)]
  rw [hset]

theorem setBuf_setBuf (s : BCache) (i : Nat) (b b2 : Buf) :
    setBuf (setBuf s i b) i b2 = setBuf s i b2 := by
  show ({ s with bufs := (s.bufs.set i b).set i b2 } : BCache) =
    { s with bufs := s.bufs.set i b2 }
  rw [List.set_set]

theorem setRefcnt_setRefcnt (b : Buf) (r r2 : Int) :
    setRefcnt (setRefcnt b r) r2 = setRefcnt b r2 := rfl

theorem setRefcnt_refcnt (b : Buf) (r : Int) : (setRefcnt b r).refcnt = r := rfl

theorem setRefcnt_self (b : Buf) : setRefcnt b b.refcnt = b := rfl

theorem bufAt_bpin_self (i : Nat) (s : BCache) (hi : i < s.bufs.length) :
    bufAt (bpin i s) i = setRefcnt (bufAt s i) (((bufAt s i).refcnt + 1) % UINT_MOD) :=
  bufAt_setBuf_self s i _ hi

theorem bufAt_bunpin_self (i : Nat) (s : BCache) (hi : i < s.bufs.length) :
    bufAt (bunpin i s) i = setRefcnt (bufAt s i) (((bufAt s i).refcnt - 1) % UINT_MOD) :=
  bufAt_setBuf_self s i _ hi

theorem applyPinOps_eq (i : Nat) (l : List Bool) : ∀ (s : BCache),
    i < s.bufs.length →
    0 ≤ (bufAt s i).refcnt → (bufAt s i).refcnt < UINT_MOD →
    applyPinOps i l s =
      setBuf s i (setRefcnt (bufAt s i) (((bufAt s i).refcnt + pinDelta l) % UINT_MOD)) := by
  induction l with
  | nil =>
    intro s hi h0 hM
    rw [applyPinOps, pinDelta, Int.add_zero, Int.emod_eq_of_lt h0 hM, setRefcnt_self,
      setBuf_bufAt_self s i hi]
  | cons b l ih =>
    intro s hi h0 hM
    have hMpos : (0 : Int) < UINT_MOD := by decide
    have hMne : UINT_MOD ≠ (0 : Int) := by decide
    rw [applyPinOps]
    cases b
    · have hi1 : i < (bunpin i s).bufs.length := by
        simpa [bunpin, setBuf] using hi
      have hb1 := bufAt_bunpin_self i s hi
      have h01 : 0 ≤ (bufAt (bunpin i s) i).refcnt := by
        rw [hb1]
        exact Int.emod_nonneg _ hMne
      have hM1 : (bufAt (bunpin i s) i).refcnt < UINT_MOD := by
        rw [hb1]
        exact Int.emod_lt_of_pos _ hMpos
      rw [if_neg (by simp), ih (bunpin i s) hi1 h01 hM1, hb1, setRefcnt_setRefcnt]
      rw [show bunpin i s =
        setBuf s i (setRefcnt (bufAt s i) (((bufAt s i).refcnt - 1) % UINT_MOD)) from rfl]
      rw [setBuf_setBuf, setRefcnt_refcnt]
      rw [Int.emod_add_emod]
      have harith : (bufAt s i).refcnt - 1 + pinDelta l =
          (bufAt s i).refcnt + pinDelta (false :: l) := by
        simp [pinDelta]
        ring
      rw [harith]
    · have hi1 : i < (bpin i s).bufs.length := by
        simpa [bpin, setBuf] using hi
      have hb1 := bufAt_bpin_self i s hi
      have h01 : 0 ≤ (bufAt (bpin i s) i).refcnt := by
        rw [hb1]
        exact Int.emod_nonneg _ hMne
      have hM1 : (bufAt (bpin i s) i).refcnt < UINT_MOD := by
        rw [hb1]
        exact Int.emod_lt_of_pos _ hMpos
      rw [if_pos rfl, ih (bpin i s) hi1 h01 hM1, hb1, setRefcnt_setRefcnt]
      rw [show bpin i s =
        setBuf s i (setRefcnt (bufAt s i) (((bufAt s i).refcnt + 1) % UINT_MOD)) from rfl]
      rw [setBuf_setBuf, setRefcnt_refcnt]
      rw [Int.emod_add_emod]
      have harith : (bufAt s i).refcnt + 1 + pinDelta l =
          (bufAt s i).refcnt + pinDelta (true :: l) := by
        simp [pinDelta]
        ring
      rw [harith]

/-- C10: `bpin`/`bunpin` add and subtract 1 (mod `2^32`) to the reference
count under the home bucket's lock only — the sleep lock's owner, the
buffer's identity and everything else are untouched — and any balanced
sequence of pins and unpins on a buffer (equally many of each, in any
order) returns the whole cache state, reference count included, to exactly
its prior value. -/
theorem bpin_bunpin_correct (i : Nat) (s : BCache) (l : List Bool)
    (hi : i < s.bufs.length)
    (h0 : 0 ≤ (bufAt s i).refcnt) (hM : (bufAt s i).refcnt < UINT_MOD)
    (hbal : l.count true = l.count false) :
    applyPinOps i l s = s ∧
    (bufAt (bpin i s) i).refcnt = ((bufAt s i).refcnt + 1) % UINT_MOD ∧
    (bufAt (bunpin i s) i).refcnt = ((bufAt s i).refcnt - 1) % UINT_MOD ∧
    (bufAt (bpin i s) i).holder = (bufAt s i).holder ∧
    (bufAt (bunpin i s) i).holder = (bufAt s i).holder ∧
    (bufAt (bpin i s) i).dev = (bufAt s i).dev ∧
    (bufAt (bpin i s) i).blockno = (bufAt s i).blockno ∧
    (bpin i s).buckets = s.buckets ∧ (bunpin i s).buckets = s.buckets ∧
    (bpin i s).ticks = s.ticks ∧ (bunpin i s).ticks = s.ticks := by
  have hzero : pinDelta l = 0 := by
    rw [pinDelta_eq_counts, hbal]
    ring
  refine ⟨?_, ?_, ?_, ?_, ?_, ?_, ?_, rfl, rfl, rfl, rfl⟩
  · rw [applyPinOps_eq i l s hi h0 hM, hzero, Int.add_zero, Int.emod_eq_of_lt h0 hM,
      setRefcnt_self, setBuf_bufAt_self s i hi]
  · rw [bufAt_bpin_self i s hi]
    exact rfl
  · rw [bufAt_bunpin_self i s hi]
    exact rfl
  · rw [bufAt_bpin_self i s hi]
    exact rfl
  · rw [bufAt_bunpin_self i s hi]
    exact rfl
  · rw [bufAt_bpin_self i s hi]
    exact rfl
  · rw [bufAt_bpin_self i s hi]
    exact rfl

/-- Closed witness for `bpin_bunpin_correct`: the matched sequence
pin-pin-unpin-unpin on `relState`'s buffer restores the state. -/
theorem bpin_bunpin_correct_witness :
    applyPinOps 0 [true, true, false, false] relState = relState ∧
    (bufAt (bpin 0 relState) 0).refcnt = 2 := by
  have h := bpin_bunpin_correct 0 relState [true, true, false, false]
    (by decide) (by decide) (by decide) (by decide)
  exact ⟨h.1, by rw [h.2.1]; decide⟩

/-! ### Shapes of the operations' successful results -/

theorem bget_shape (tid dev blockno i : Nat) (s s' : BCache)
    (h : bget tid dev blockno s = some (i, s')) :
    (findMatch s dev blockno = some i ∧
      s' = setBuf s i ({ bufAt s i with
        refcnt := ((bufAt s i).refcnt + 1) % UINT_MOD,
        used_tick := s.ticks, holder := some tid })) ∨
    (findMatch s dev blockno = none ∧
      ∃ vb, evictScan (bufAt s) s.buckets (blockno % BUCKET_SIZE) = some (i, vb) ∧
        s' = { setBuf s i ({ bufAt s i with
          dev := dev, blockno := blockno, valid := false,
          refcnt := 1, used_tick := s.ticks, holder := some tid }) with
          buckets := evictRelink s.buckets i vb (blockno % BUCKET_SIZE) }) := by
  unfold bget at h
  rcases hfm : findMatch s dev blockno with _ | i0
  · rw [hfm] at h
    rcases hev : evictScan (bufAt s) s.buckets (blockno % BUCKET_SIZE) with _ | ⟨v, vb⟩
    · rw [hev] at h
      exact absurd h (by simp)
    · rw [hev] at h
      rw [Option.some.injEq, Prod.mk.injEq] at h
      obtain ⟨h1, h2⟩ := h
      subst h1
      subst h2
      exact Or.inr ⟨rfl, vb, rfl, rfl⟩
  · rw [hfm] at h
    rw [Option.some.injEq, Prod.mk.injEq] at h
    obtain ⟨h1, h2⟩ := h
    subst h1
    subst h2
    exact Or.inl ⟨rfl, rfl⟩

theorem bread_shape (tid dev blockno i : Nat) (s s' : BCache)
    (h : bread tid dev blockno s = some (i, s')) :
    ∃ s1, bget tid dev blockno s = some (i, s1) ∧
      s' = setBuf (breadFill dev blockno i s1) i
        ({ bufAt (breadFill dev blockno i s1) i with
           used_tick := (breadFill dev blockno i s1).ticks }) := by
  unfold bread at h
  rcases hg : bget tid dev blockno s with _ | ⟨i0, s1⟩
  · rw [hg] at h
    exact absurd h (by simp)
  · rw [hg] at h
    rw [Option.some.injEq, Prod.mk.injEq] at h
    obtain ⟨h1, h2⟩ := h
    subst h1
    subst h2
    exact ⟨s1, rfl, rfl⟩

theorem brelse_shape (tid i : Nat) (s s' : BCache) (h : brelse tid i s = some s') :
    (bufAt s i).holder = some tid ∧
    s' = { setBuf s i ({ bufAt s i with
                         holder := none,
                         refcnt := ((bufAt s i).refcnt - 1) % UINT_MOD,
                         used_tick := s.ticks }) with
           buckets := if ((bufAt s i).refcnt - 1) % UINT_MOD = 0 then
                        moveToFront s.buckets i ((bufAt s i).blockno % BUCKET_SIZE)
                      else s.buckets } := by
  unfold brelse at h
  by_cases hh : (bufAt s i).holder = some tid
  · rw [if_pos hh, Option.some.injEq] at h
    exact ⟨hh, h.symm⟩
  · rw [if_neg hh] at h
    exact absurd h (by simp)

theorem bwrite_shape (tid i : Nat) (s s' : BCache) (h : bwrite tid i s = some s') :
    (bufAt s i).holder = some tid ∧
    s' = { s with disk :=
      (fun d bl =>
        if d = (bufAt s i).dev ∧ bl = (bufAt s i).blockno then (bufAt s i).data
        else s.disk d bl) } := by
  unfold bwrite at h
  by_cases hh : (bufAt s i).holder = some tid
  · rw [if_pos hh, Option.some.injEq] at h
    exact ⟨hh, h.symm⟩
  · rw [if_neg hh] at h
    exact absurd h (by simp)

/-! ### `List.find?` toolkit -/

theorem find?_mono (p p2 : Nat → Bool) (l : List Nat) (x : Nat)
    (h : l.find? p = some x) (hx : p2 x = true)
    (himp : ∀ y ∈ l, y ≠ x → p2 y = true → p y = true) :
    l.find? p2 = some x := by
  induction l with
  | nil => exact absurd h (by simp)
  | cons a l ih =>
    rcases hpa : p a with _ | _
    · rw [List.find?_cons_of_neg _ (by rw [hpa]; simp)] at h
      by_cases hax : a = x
      · subst hax
        rw [List.find?_cons_of_pos _ hx]
      · rcases hp2a : p2 a with _ | _
        · rw [List.find?_cons_of_neg _ (by rw [hp2a]; simp)]
          exact ih h (fun y hy => himp y (List.mem_cons_of_mem _ hy))
        · exact absurd (himp a (List.mem_cons_self _ _) hax hp2a) (by rw [hpa]; simp)
    · rw [List.find?_cons_of_pos _ hpa, Option.some.injEq] at h
      subst h
      rw [List.find?_cons_of_pos _ hx]

theorem find?_filter_ne (p : Nat → Bool) (l : List Nat) (x v : Nat)
    (h : l.find? p = some x) (hxv : x ≠ v) :
    (l.filter (fun y => y != v)).find? p = some x := by
  induction l with
  | nil => exact absurd h (by simp)
  | cons a l ih =>
    rcases hpa : p a with _ | _
    · rw [List.find?_cons_of_neg _ (by rw [hpa]; simp)] at h
      by_cases hav : a = v
      · rw [List.filter_cons_of_neg (by simp [hav])]
        exact ih h
      · rw [List.filter_cons_of_pos (by simp [hav])]
        rw [List.find?_cons_of_neg _ (by rw [hpa]; simp)]
        exact ih h
    · rw [List.find?_cons_of_pos _ hpa, Option.some.injEq] at h
      subst h
      rw [List.filter_cons_of_pos (by simp [hxv])]
      rw [List.find?_cons_of_pos _ hpa]

theorem find?_unique (p : Nat → Bool) (l : List Nat) (x : Nat)
    (hmem : x ∈ l) (hx : p x = true)
    (hothers : ∀ y ∈ l, y ≠ x → p y = false) :
    l.find? p = some x := by
  induction l with
  | nil => exact absurd hmem (List.not_mem_nil x)
  | cons a l ih =>
    by_cases hax : a = x
    · subst hax
      rw [List.find?_cons_of_pos _ hx]
    · rw [List.find?_cons_of_neg _ (by
        rw [hothers a (List.mem_cons_self _ _) hax]
        simp)]
      have hmem' : x ∈ l := by
        rcases List.mem_cons.mp hmem with h | h
        · exact absurd h.symm hax
        · exact h
      exact ih hmem' (fun y hy => hothers y (List.mem_cons_of_mem _ hy))

theorem find?_congr (p p2 : Nat → Bool) (l : List Nat) (h : ∀ x ∈ l, p x = p2 x) :
    l.find? p = l.find? p2 := by
  induction l with
  | nil => rfl
  | cons a l ih =>
    rw [List.find?_cons, List.find?_cons, h a (List.mem_cons_self _ _),
      ih (fun x hx => h x (List.mem_cons_of_mem _ hx))]

/-! ### Pool and bucket bookkeeping -/

theorem bufAt_default (s : BCache) (i : Nat) (hi : s.bufs.length ≤ i) :
    bufAt s i = default := by
  rw [bufAt, List.getD_eq_default _ _ hi]

theorem setBuf_bufs_length (s : BCache) (i : Nat) (b : Buf) :
    (setBuf s i b).bufs.length = s.bufs.length := by
  simp [setBuf]

theorem setBuf_buckets (s : BCache) (i : Nat) (b : Buf) :
    (setBuf s i b).buckets = s.buckets := rfl

theorem bufAt_setBuf_cases (s : BCache) (i : Nat) (b : Buf) (j : Nat) :
    (j = i ∧ i < s.bufs.length ∧ bufAt (setBuf s i b) j = b) ∨
    bufAt (setBuf s i b) j = bufAt s j := by
  by_cases hij : j = i
  · subst hij
    by_cases hi : j < s.bufs.length
    · exact Or.inl ⟨rfl, hi, bufAt_setBuf_self s j b hi⟩
    · right
      rw [bufAt_default _ _ (by
          rw [setBuf_bufs_length]
          exact Nat.le_of_not_lt hi),
        bufAt_default _ _ (Nat.le_of_not_lt hi)]
  · exact Or.inr (bufAt_setBuf_ne s i j b (Ne.symm hij))

theorem mem_getD_of_lists (buckets : List (List Nat)) (k x : Nat)
    (hx : x ∈ buckets.getD k []) : ∃ l ∈ buckets, x ∈ l := by
  by_cases hk : k < buckets.length
  · rw [List.getD_eq_getElem _ _ hk] at hx
    exact ⟨buckets[k], List.getElem_mem hk, hx⟩
  · rw [List.getD_eq_default _ _ (Nat.le_of_not_lt hk)] at hx
    exact absurd hx (List.not_mem_nil x)

theorem lt_of_mem_getD (buckets : List (List Nat)) (k x : Nat)
    (hx : x ∈ buckets.getD k []) : k < buckets.length := by
  by_contra hk
  rw [List.getD_eq_default _ _ (Nat.le_of_not_lt hk)] at hx
  exact List.not_mem_nil x hx

theorem getD_set_self (buckets : List (List Nat)) (k : Nat) (x : List Nat)
    (hk : k < buckets.length) : (buckets.set k x).getD k [] = x := by
  rw [List.getD_eq_getElem?_getD, List.getElem?_set_self hk]
  rfl

theorem getD_set_ne (buckets : List (List Nat)) (k j : Nat) (x : List Nat)
    (hkj : k ≠ j) : (buckets.set k x).getD j [] = buckets.getD j [] := by
  rw [List.getD_eq_getElem?_getD, List.getElem?_set_ne hkj, ← List.getD_eq_getElem?_getD]

theorem getD_map_filter (buckets : List (List Nat)) (f : List Nat → List Nat)
    (hf : f [] = []) (k : Nat) :
    (buckets.map f).getD k [] = f (buckets.getD k []) := by
  by_cases hk : k < buckets.length
  · have hk2 : k < (buckets.map f).length := by simpa using hk
    rw [List.getD_eq_getElem _ _ hk2, List.getD_eq_getElem _ _ hk]
    simp
  · rw [List.getD_eq_default _ _ (by simpa using Nat.le_of_not_lt hk),
      List.getD_eq_default _ _ (Nat.le_of_not_lt hk), hf]

theorem evictRelink_length (buckets : List (List Nat)) (v vb cur : Nat) :
    (evictRelink buckets v vb cur).length = buckets.length := by
  unfold evictRelink
  by_cases h : vb = cur
  · rw [if_pos h]
  · rw [if_neg h]
    simp

theorem evictRelink_mem (buckets : List (List Nat)) (v vb cur : Nat) :
    ∀ l ∈ evictRelink buckets v vb cur, ∀ x ∈ l, (∃ l0 ∈ buckets, x ∈ l0) ∨ x = v := by
  intro l hl x hx
  unfold evictRelink at hl
  by_cases h : vb = cur
  · rw [if_pos h] at hl
    exact Or.inl ⟨l, hl, hx⟩
  · rw [if_neg h] at hl
    rcases List.mem_or_eq_of_mem_set hl with hl1 | hl1
    · rcases List.mem_or_eq_of_mem_set hl1 with hl2 | hl2
      · exact Or.inl ⟨l, hl2, hx⟩
      · subst hl2
        exact Or.inl (mem_getD_of_lists buckets vb x (List.mem_of_mem_filter hx))
    · subst hl1
      rcases List.mem_cons.mp hx with h1 | h1
      · exact Or.inr h1
      · rcases mem_getD_of_lists _ cur x h1 with ⟨l0, hl0, hx0⟩
        rcases List.mem_or_eq_of_mem_set hl0 with hl0' | hl0'
        · exact Or.inl ⟨l0, hl0', hx0⟩
        · subst hl0'
          exact Or.inl (mem_getD_of_lists buckets vb x (List.mem_of_mem_filter hx0))

theorem moveToFront_length (buckets : List (List Nat)) (i k : Nat) :
    (moveToFront buckets i k).length = buckets.length := by
  unfold moveToFront
  simp

theorem moveToFront_mem (buckets : List (List Nat)) (i k : Nat) :
    ∀ l ∈ moveToFront buckets i k, ∀ x ∈ l, (∃ l0 ∈ buckets, x ∈ l0) ∨ x = i := by
  intro l hl x hx
  unfold moveToFront at hl
  rcases List.mem_or_eq_of_mem_set hl with hl1 | hl1
  · rcases List.mem_map.mp hl1 with ⟨l0, hl0, rfl⟩
    exact Or.inl ⟨l0, hl0, List.mem_of_mem_filter hx⟩
  · subst hl1
    rcases List.mem_cons.mp hx with h1 | h1
    · exact Or.inr h1
    · rcases mem_getD_of_lists _ k x h1 with ⟨l0, hl0, hx0⟩
      rcases List.mem_map.mp hl0 with ⟨l1, hl1, rfl⟩
      exact Or.inl ⟨l1, hl1, List.mem_of_mem_filter hx0⟩

/-! ### What the eviction scan selects -/

theorem scanBucket_sel (bufs : Nat → Buf) (ids : List Nat) :
    ∀ (acc : Option Nat × Nat) (a : Nat),
      (∀ x, acc.1 = some x → (bufs x).refcnt = 0) →
      (scanBucket bufs acc ids).1 = some a → (bufs a).refcnt = 0 := by
  induction ids with
  | nil => intro acc a hacc h; exact hacc a h
  | cons i ids ih =>
    intro acc a hacc h
    rw [scanBucket_cons] at h
    apply ih _ a _ h
    intro x hx
    unfold scanStep at hx
    by_cases hcond : (bufs i).refcnt = 0 ∧ (acc.2 = 0 ∨ (bufs i).used_tick < acc.2)
    · rw [if_pos hcond] at hx
      have hx2 : (some i : Option Nat) = some x := hx
      rw [← Option.some.inj hx2]
      exact hcond.1
    · rw [if_neg hcond] at hx
      exact hacc x hx

theorem scanBucket_mem (bufs : Nat → Buf) (ids : List Nat) :
    ∀ (acc : Option Nat × Nat) (a : Nat),
      (scanBucket bufs acc ids).1 = some a → acc.1 = some a ∨ a ∈ ids := by
  induction ids with
  | nil => intro acc a h; exact Or.inl h
  | cons i ids ih =>
    intro acc a h
    rw [scanBucket_cons] at h
    rcases ih _ a h with h1 | h1
    · unfold scanStep at h1
      by_cases hcond : (bufs i).refcnt = 0 ∧ (acc.2 = 0 ∨ (bufs i).used_tick < acc.2)
      · rw [if_pos hcond] at h1
        have h2 : (some i : Option Nat) = some a := h1
        exact Or.inr (Option.some.inj h2 ▸ List.mem_cons_self i ids)
      · rw [if_neg hcond] at h1
        exact Or.inl h1
    · exact Or.inr (List.mem_cons_of_mem _ h1)

theorem evictFind_sel (bufs : Nat → Buf) (buckets : List (List Nat)) (cur : Nat) :
    ∀ (offs : List Nat) (t : Nat) (v vb : Nat),
      evictFind bufs buckets cur offs (none, t) = some (v, vb) →
      (bufs v).refcnt = 0 ∧ v ∈ buckets.getD vb [] := by
  intro offs
  induction offs with
  | nil => intro t v vb h; exact absurd h (by simp [evictFind])
  | cons i offs ih =>
    intro t v vb h
    simp only [evictFind] at h
    rcases hsc : (scanBucket bufs (none, t)
        (buckets.getD ((cur + i) % BUCKET_SIZE) [])).1 with _ | v0
    · rw [hsc] at h
      have hpair : scanBucket bufs (none, t) (buckets.getD ((cur + i) % BUCKET_SIZE) []) =
          (none, (scanBucket bufs (none, t) (buckets.getD ((cur + i) % BUCKET_SIZE) [])).2) := by
        rw [Prod.ext_iff]
        exact ⟨hsc, rfl⟩
      rw [hpair] at h
      exact ih _ v vb h
    · rw [hsc] at h
      have h2 : (some (v0, (cur + i) % BUCKET_SIZE) : Option (Nat × Nat)) = some (v, vb) := h
      have h3 := Option.some.inj h2
      rw [Prod.mk.injEq] at h3
      obtain ⟨h4, h5⟩ := h3
      subst h4
      subst h5
      constructor
      · exact scanBucket_sel bufs _ (none, t) v0 (fun x hx => Option.noConfusion hx) hsc
      · rcases scanBucket_mem bufs _ (none, t) v0 hsc with h6 | h6
        · exact absurd h6 (by simp)
        · exact h6

theorem evictScan_sel (bufs : Nat → Buf) (buckets : List (List Nat)) (cur v vb : Nat)
    (h : evictScan bufs buckets cur = some (v, vb)) :
    (bufs v).refcnt = 0 ∧ v ∈ buckets.getD vb [] :=
  evictFind_sel bufs buckets cur (List.range BUCKET_SIZE) 0 v vb h

/-! ### The ownership invariant -/

theorem findMatch_congr (s s2 : BCache) (hbk : s2.buckets = s.buckets)
    (hid : ∀ x, (bufAt s2 x).dev = (bufAt s x).dev ∧
      (bufAt s2 x).blockno = (bufAt s x).blockno)
    (dev blockno : Nat) :
    findMatch s2 dev blockno = findMatch s dev blockno := by
  unfold findMatch
  rw [hbk]
  exact find?_congr _ _ _ (fun x _ => by rw [(hid x).1, (hid x).2])

/-- Invariant of reachable cache states: the bucket table keeps its
`BUCKET_SIZE` lists, bucket entries index the pool, and every buffer that is
valid or sleep-locked is the *first* match for its own identity in that
identity's home bucket (which makes the valid representative of any
(dev, blockno) pair unique). -/
def INV (s : BCache) : Prop :=
  s.buckets.length = BUCKET_SIZE ∧
  (∀ l ∈ s.buckets, ∀ x ∈ l, x < s.bufs.length) ∧
  (∀ i, ((bufAt s i).valid = true ∨ (bufAt s i).holder ≠ none) →
    findMatch s (bufAt s i).dev (bufAt s i).blockno = some i)

theorem bufAt_binit (nbuf i : Nat) : bufAt (binit nbuf) i = default := by
  show (List.replicate nbuf default).getD i default = default
  rw [List.getD_eq_getElem?_getD, List.getElem?_replicate]
  by_cases h : i < nbuf
  · rw [if_pos h]
    rfl
  · rw [if_neg h]
    rfl

theorem INV_binit (nbuf : Nat) : INV (binit nbuf) := by
  refine ⟨by simp [binit], ?_, ?_⟩
  · intro l hl x hx
    simp only [binit] at hl
    rcases List.mem_map.mp hl with ⟨k, hk, rfl⟩
    have hx2 := List.mem_filter.mp (List.mem_reverse.mp hx)
    have hxr := List.mem_range.mp hx2.1
    simpa [binit] using hxr
  · intro i hi
    rw [bufAt_binit] at hi
    rcases hi with h | h
    · exact absurd h (by decide)
    · exact absurd rfl h

theorem findMatch_self (s : BCache) (dev blockno i : Nat)
    (hfm : findMatch s dev blockno = some i) :
    findMatch s (bufAt s i).dev (bufAt s i).blockno = some i := by
  have hp := List.find?_some hfm
  simp only [Bool.and_eq_true, beq_iff_eq] at hp
  rw [hp.1, hp.2]
  exact hfm

theorem findMatch_mem (s : BCache) (dev blockno i : Nat)
    (hfm : findMatch s dev blockno = some i) :
    i ∈ s.buckets.getD (blockno % BUCKET_SIZE) [] :=
  List.mem_of_find?_eq_some hfm

/-- Preservation of `INV` by a buffer replacement that keeps the identity and
either keeps the buffer unreferenced or can justify its first-match status. -/
theorem INV_setBuf_keep (s : BCache) (i : Nat) (b : Buf)
    (hdev : b.dev = (bufAt s i).dev) (hblk : b.blockno = (bufAt s i).blockno)
    (hfirst : (b.valid = true ∨ b.holder ≠ none) →
      findMatch s (bufAt s i).dev (bufAt s i).blockno = some i)
    (h : INV s) : INV (setBuf s i b) := by
  obtain ⟨hC, hB, hA⟩ := h
  have hid : ∀ x, (bufAt (setBuf s i b) x).dev = (bufAt s x).dev ∧
      (bufAt (setBuf s i b) x).blockno = (bufAt s x).blockno := by
    intro x
    rcases bufAt_setBuf_cases s i b x with ⟨hxi, hi, heq⟩ | heq
    · subst hxi
      rw [heq, hdev, hblk]
      exact ⟨rfl, rfl⟩
    · rw [heq]
      exact ⟨rfl, rfl⟩
  have hcongr := findMatch_congr s (setBuf s i b) (setBuf_buckets s i b) hid
  refine ⟨by rw [setBuf_buckets]; exact hC, ?_, ?_⟩
  · intro l hl x hx
    rw [setBuf_bufs_length]
    exact hB l (by rwa [setBuf_buckets] at hl) x hx
  · intro x hx
    rw [(hid x).1, (hid x).2, hcongr]
    rcases bufAt_setBuf_cases s i b x with ⟨hxi, hi, heq⟩ | heq
    · subst hxi
      rw [heq] at hx
      exact hfirst hx
    · rw [heq] at hx
      exact hA x hx

/-- Preservation of `INV` by the miss path's victim relink: the victim gets
the missed identity and moves to (or stays in) the home bucket's list. -/
theorem INV_relink (s s2 : BCache) (i vb dev blockno : Nat)
    (hfm : findMatch s dev blockno = none)
    (hmem : i ∈ s.buckets.getD vb [])
    (h : INV s)
    (hbk2 : s2.buckets = evictRelink s.buckets i vb (blockno % BUCKET_SIZE))
    (hlen2 : s2.bufs.length = s.bufs.length)
    (hbi : (bufAt s2 i).dev = dev ∧ (bufAt s2 i).blockno = blockno)
    (hbne : ∀ y, y ≠ i → bufAt s2 y = bufAt s y) : INV s2 := by
  obtain ⟨hC, hB, hA⟩ := h
  have hvb : vb < s.buckets.length := lt_of_mem_getD _ _ _ hmem
  have hcur : blockno % BUCKET_SIZE < s.buckets.length := by
    rw [hC]
    exact Nat.mod_lt _ (by decide)
  have hi : i < s.bufs.length := by
    rcases mem_getD_of_lists _ _ _ hmem with ⟨l0, hl0, hx0⟩
    exact hB l0 hl0 i hx0
  refine ⟨by rw [hbk2, evictRelink_length]; exact hC, ?_, ?_⟩
  · intro l hl x hx
    rw [hlen2]
    rw [hbk2] at hl
    rcases evictRelink_mem s.buckets i vb (blockno % BUCKET_SIZE) l hl x hx with
      ⟨l0, hl0, hx0⟩ | rfl
    · exact hB l0 hl0 x hx0
    · exact hi
  · intro x hx
    by_cases hxi : x = i
    · subst hxi
      rw [hbi.1, hbi.2]
      unfold findMatch
      rw [hbk2]
      unfold evictRelink
      by_cases hvc : vb = blockno % BUCKET_SIZE
      · rw [if_pos hvc]
        apply find?_unique
        · rw [← hvc]
          exact hmem
        · rw [hbi.1, hbi.2]
          simp
        · intro y hy hyx
          rw [hbne y hyx]
          have hnone := List.find?_eq_none.mp hfm y hy
          rcases hb : ((bufAt s y).dev == dev && (bufAt s y).blockno == blockno) with _ | _
          · rfl
          · exact absurd hb hnone
      · rw [if_neg hvc]
        rw [getD_set_self _ _ _ (by rw [List.length_set]; exact hcur)]
        rw [List.find?_cons_of_pos _ (by rw [hbi.1, hbi.2]; simp)]
    · have hxvh : (bufAt s x).valid = true ∨ (bufAt s x).holder ≠ none := by
        rw [← hbne x hxi]
        exact hx
      have hfind := hA x hxvh
      rw [hbne x hxi]
      have hpx : ((bufAt s2 x).dev == (bufAt s x).dev &&
          (bufAt s2 x).blockno == (bufAt s x).blockno) = true := by
        rw [hbne x hxi]
        simp
      have hpi : ((bufAt s2 i).dev == (bufAt s x).dev &&
          (bufAt s2 i).blockno == (bufAt s x).blockno) = false := by
        rw [hbi.1, hbi.2]
        by_contra hb
        rw [Bool.not_eq_false, Bool.and_eq_true, beq_iff_eq, beq_iff_eq] at hb
        rw [← hb.1, ← hb.2] at hfind
        rw [hfind] at hfm
        exact Option.noConfusion hfm
      have hmono : ∀ L : List Nat,
          L.find? (fun y => (bufAt s y).dev == (bufAt s x).dev &&
            (bufAt s y).blockno == (bufAt s x).blockno) = some x →
          L.find? (fun y => (bufAt s2 y).dev == (bufAt s x).dev &&
            (bufAt s2 y).blockno == (bufAt s x).blockno) = some x := by
        intro L hL
        apply find?_mono _ _ L x hL hpx
        intro y hy hyx hp2
        by_cases hyi : y = i
        · subst hyi
          exact absurd hp2 (by rw [hpi]; simp)
        · rw [← hbne y hyi]
          exact hp2
      unfold findMatch
      rw [hbk2]
      unfold evictRelink
      by_cases hvc : vb = blockno % BUCKET_SIZE
      · rw [if_pos hvc]
        exact hmono _ hfind
      · rw [if_neg hvc]
        by_cases h1 : (bufAt s x).blockno % BUCKET_SIZE = blockno % BUCKET_SIZE
        · rw [h1, getD_set_self _ _ _ (by rw [List.length_set]; exact hcur)]
          rw [List.find?_cons_of_neg _ (by rw [hpi]; simp)]
          rw [getD_set_ne _ _ _ _ hvc]
          apply hmono
          rw [← h1]
          exact hfind
        · by_cases h2 : (bufAt s x).blockno % BUCKET_SIZE = vb
          · rw [h2]
            rw [getD_set_ne _ _ _ _ (fun hc => hvc hc.symm)]
            rw [getD_set_self _ _ _ hvb]
            apply find?_filter_ne _ _ _ _ _ hxi
            apply hmono
            rw [← h2]
            exact hfind
          · rw [getD_set_ne _ _ _ _ (fun hc => h1 hc.symm)]
            rw [getD_set_ne _ _ _ _ (fun hc => h2 hc.symm)]
            exact hmono _ hfind

/-- Preservation of `INV` by `brelse`'s move-to-front of a held buffer. -/
theorem INV_move (s s2 : BCache) (i : Nat)
    (hh : (bufAt s i).holder ≠ none)
    (h : INV s)
    (hbk2 : s2.buckets = moveToFront s.buckets i ((bufAt s i).blockno % BUCKET_SIZE))
    (hlen2 : s2.bufs.length = s.bufs.length)
    (hbi : (bufAt s2 i).dev = (bufAt s i).dev ∧
      (bufAt s2 i).blockno = (bufAt s i).blockno)
    (hbne : ∀ y, y ≠ i → bufAt s2 y = bufAt s y) : INV s2 := by
  obtain ⟨hC, hB, hA⟩ := h
  have hi : i < s.bufs.length := by
    by_contra hc
    rw [bufAt_default s i (Nat.le_of_not_lt hc)] at hh
    exact hh rfl
  have hcur : (bufAt s i).blockno % BUCKET_SIZE < s.buckets.length := by
    rw [hC]
    exact Nat.mod_lt _ (by decide)
  have hAi := hA i (Or.inr hh)
  have hid : ∀ y, (bufAt s2 y).dev = (bufAt s y).dev ∧
      (bufAt s2 y).blockno = (bufAt s y).blockno := by
    intro y
    by_cases hyi : y = i
    · subst hyi
      exact hbi
    · rw [hbne y hyi]
      exact ⟨rfl, rfl⟩
  refine ⟨by rw [hbk2, moveToFront_length]; exact hC, ?_, ?_⟩
  · intro l hl x hx
    rw [hlen2]
    rw [hbk2] at hl
    rcases moveToFront_mem s.buckets i ((bufAt s i).blockno % BUCKET_SIZE) l hl x hx with
      ⟨l0, hl0, hx0⟩ | rfl
    · exact hB l0 hl0 x hx0
    · exact hi
  · intro x hx
    have hcongrList : ∀ (L : List Nat) (q1 q2 : Nat),
        L.find? (fun y => (bufAt s2 y).dev == q1 && (bufAt s2 y).blockno == q2) =
        L.find? (fun y => (bufAt s y).dev == q1 && (bufAt s y).blockno == q2) :=
      fun L q1 q2 => find?_congr _ _ L (fun y _ => by rw [(hid y).1, (hid y).2])
    by_cases hxi : x = i
    · subst hxi
      rw [hbi.1, hbi.2]
      unfold findMatch
      rw [hbk2]
      unfold moveToFront
      rw [getD_set_self _ _ _ (by rw [List.length_map]; exact hcur)]
      rw [List.find?_cons_of_pos _ (by rw [hbi.1, hbi.2]; simp)]
    · have hxvh : (bufAt s x).valid = true ∨ (bufAt s x).holder ≠ none := by
        rw [← hbne x hxi]
        exact hx
      have hfind := hA x hxvh
      rw [hbne x hxi]
      have hpi : ((bufAt s i).dev == (bufAt s x).dev &&
          (bufAt s i).blockno == (bufAt s x).blockno) = false := by
        by_contra hb
        rw [Bool.not_eq_false, Bool.and_eq_true, beq_iff_eq, beq_iff_eq] at hb
        rw [hb.1, hb.2] at hAi
        rw [hfind] at hAi
        exact hxi (Option.some.inj hAi)
      unfold findMatch
      rw [hbk2]
      unfold moveToFront
      by_cases h1 : (bufAt s x).blockno % BUCKET_SIZE = (bufAt s i).blockno % BUCKET_SIZE
      · rw [h1, getD_set_self _ _ _ (by rw [List.length_map]; exact hcur)]
        rw [List.find?_cons_of_neg _ (by
          rw [(hid i).1, (hid i).2, hpi]
          simp)]
        rw [getD_map_filter _ _ rfl]
        rw [hcongrList]
        apply find?_filter_ne _ _ _ _ _ hxi
        rw [← h1]
        exact hfind
      · rw [getD_set_ne _ _ _ _ (fun hc => h1 hc.symm)]
        rw [getD_map_filter _ _ rfl]
        rw [hcongrList]
        exact find?_filter_ne _ _ _ _ hfind hxi

/-- `bget` preserves the invariant and returns a sleep-locked buffer. -/
theorem INV_bget (tid dev blockno i : Nat) (s s1 : BCache)
    (hbg : bget tid dev blockno s = some (i, s1)) (h : INV s) :
    INV s1 ∧ (bufAt s1 i).holder = some tid := by
  rcases bget_shape tid dev blockno i s s1 hbg with ⟨hfm, rfl⟩ | ⟨hfm, vb, hev, rfl⟩
  · have hi : i < s.bufs.length := by
      rcases mem_getD_of_lists _ _ _ (findMatch_mem s dev blockno i hfm) with ⟨l0, hl0, hx0⟩
      exact h.2.1 l0 hl0 i hx0
    refine ⟨INV_setBuf_keep s i _ rfl rfl
      (fun _ => findMatch_self s dev blockno i hfm) h, ?_⟩
    rw [bufAt_setBuf_self s i _ hi]
  · obtain ⟨hrc, hmem⟩ := evictScan_sel (bufAt s) s.buckets _ i vb hev
    have hi : i < s.bufs.length := by
      rcases mem_getD_of_lists _ _ _ hmem with ⟨l0, hl0, hx0⟩
      exact h.2.1 l0 hl0 i hx0
    refine ⟨?_, ?_⟩
    · apply INV_relink s _ i vb dev blockno hfm hmem h rfl
      · simp [setBuf]
      · rw [bufAt_withBuckets, bufAt_setBuf_self s i _ hi]
        exact ⟨rfl, rfl⟩
      · intro y hy
        rw [bufAt_withBuckets, bufAt_setBuf_ne s i y _ (Ne.symm hy)]
    · rw [bufAt_withBuckets, bufAt_setBuf_self s i _ hi]

/-- The invariant holds in every reachable state. -/
theorem reachable_INV (nbuf : Nat) (s : BCache) (hr : Reachable nbuf s) : INV s := by
  induction hr with
  | init => exact INV_binit nbuf
  | @step s s2 hrs hstep ih =>
    cases hstep with
    | get tid dev blockno i _ _ hbg hfree =>
      exact (INV_bget tid dev blockno i _ _ hbg ih).1
    | read tid dev blockno i _ _ hbr hfree =>
      rcases bread_shape tid dev blockno i _ _ hbr with ⟨s1, hg, rfl⟩
      obtain ⟨hINV1, hhold1⟩ := INV_bget tid dev blockno i _ s1 hg ih
      have hINV2 : INV (breadFill dev blockno i s1) := by
        unfold breadFill
        by_cases hv : (bufAt s1 i).valid = true
        · rw [if_pos hv]
          exact hINV1
        · rw [if_neg hv]
          apply INV_setBuf_keep s1 i
            ({ bufAt s1 i with data := s1.disk dev blockno, valid := true })
            rfl rfl _ hINV1
          intro _
          exact hINV1.2.2 i (Or.inr (by rw [hhold1]; simp))
      apply INV_setBuf_keep (breadFill dev blockno i s1) i
        ({ bufAt (breadFill dev blockno i s1) i with
           used_tick := (breadFill dev blockno i s1).ticks })
        rfl rfl _ hINV2
      intro hvh
      exact hINV2.2.2 i hvh
    | write tid i _ _ hbw =>
      rcases bwrite_shape tid i _ _ hbw with ⟨hh, rfl⟩
      exact ih
    | rel tid i _ _ hbr =>
      rcases brelse_shape tid i _ _ hbr with ⟨hh, rfl⟩
      have hi : i < s.bufs.length := bufAt_lt_of_holder s i tid hh
      by_cases hr0 : ((bufAt s i).refcnt - 1) % UINT_MOD = 0
      · rw [if_pos hr0]
        apply INV_move s _ i (by rw [hh]; simp) ih rfl
        · simp [setBuf]
        · rw [bufAt_withBuckets, bufAt_setBuf_self s i _ hi]
          exact ⟨rfl, rfl⟩
        · intro y hy
          rw [bufAt_withBuckets, bufAt_setBuf_ne s i y _ (Ne.symm hy)]
      · rw [if_neg hr0]
        exact INV_setBuf_keep s i _ rfl rfl
          (fun _ => ih.2.2 i (Or.inr (by rw [hh]; simp))) ih
    | pin i _ hi =>
      exact INV_setBuf_keep s i
        (setRefcnt (bufAt s i) (((bufAt s i).refcnt + 1) % UINT_MOD)) rfl rfl
        (fun hvh => ih.2.2 i hvh) ih
    | unpin i _ hi =>
      exact INV_setBuf_keep s i
        (setRefcnt (bufAt s i) (((bufAt s i).refcnt - 1) % UINT_MOD)) rfl rfl
        (fun hvh => ih.2.2 i hvh) ih
    | tick => exact ih

/-! ### Reference counts along reachable states -/

theorem nonneg_setBuf (s : BCache) (i : Nat) (b : Buf) (hb : 0 ≤ b.refcnt)
    (h : ∀ j, 0 ≤ (bufAt s j).refcnt) : ∀ j, 0 ≤ (bufAt (setBuf s i b) j).refcnt := by
  intro j
  rcases bufAt_setBuf_cases s i b j with ⟨_, _, heq⟩ | heq
  · rw [heq]
    exact hb
  · rw [heq]
    exact h j

theorem nonneg_bget (tid dev blockno i : Nat) (s s1 : BCache)
    (hbg : bget tid dev blockno s = some (i, s1))
    (h : ∀ j, 0 ≤ (bufAt s j).refcnt) : ∀ j, 0 ≤ (bufAt s1 j).refcnt := by
  have hMne : UINT_MOD ≠ (0 : Int) := by decide
  rcases bget_shape tid dev blockno i s s1 hbg with ⟨hfm, rfl⟩ | ⟨hfm, vb, hev, rfl⟩
  · exact nonneg_setBuf s i _ (Int.emod_nonneg _ hMne) h
  · intro j
    rw [bufAt_withBuckets]
    refine nonneg_setBuf s i _ ?_ h j
    show (0 : Int) ≤ 1
    decide

theorem nonneg_step (s s2 : BCache) (hstep : Step s s2)
    (h : ∀ j, 0 ≤ (bufAt s j).refcnt) : ∀ j, 0 ≤ (bufAt s2 j).refcnt := by
  have hMne : UINT_MOD ≠ (0 : Int) := by decide
  cases hstep with
  | get tid dev blockno i _ _ hbg hfree => exact nonneg_bget tid dev blockno i s s2 hbg h
  | read tid dev blockno i _ _ hbr hfree =>
    rcases bread_shape tid dev blockno i _ _ hbr with ⟨s1, hg, rfl⟩
    have h1 := nonneg_bget tid dev blockno i s s1 hg h
    have h2 : ∀ j, 0 ≤ (bufAt (breadFill dev blockno i s1) j).refcnt := by
      unfold breadFill
      by_cases hv : (bufAt s1 i).valid = true
      · rw [if_pos hv]
        exact h1
      · rw [if_neg hv]
        exact nonneg_setBuf s1 i _ (h1 i) h1
    exact nonneg_setBuf _ i _ (h2 i) h2
  | write tid i _ _ hbw =>
    rcases bwrite_shape tid i _ _ hbw with ⟨hh, rfl⟩
    exact h
  | rel tid i _ _ hbr =>
    rcases brelse_shape tid i _ _ hbr with ⟨hh, rfl⟩
    intro j
    rw [bufAt_withBuckets]
    exact nonneg_setBuf s i _ (Int.emod_nonneg _ hMne) h j
  | pin i _ hi =>
    exact nonneg_setBuf s i
      (setRefcnt (bufAt s i) (((bufAt s i).refcnt + 1) % UINT_MOD))
      (Int.emod_nonneg _ hMne) h
  | unpin i _ hi =>
    exact nonneg_setBuf s i
      (setRefcnt (bufAt s i) (((bufAt s i).refcnt - 1) % UINT_MOD))
      (Int.emod_nonneg _ hMne) h
  | tick => exact h

theorem reachable_nonneg (nbuf : Nat) (s : BCache) (hr : Reachable nbuf s) :
    ∀ j, 0 ≤ (bufAt s j).refcnt := by
  induction hr with
  | init =>
    intro j
    rw [bufAt_binit]
    exact le_refl 0
  | @step s1 s2 hrs hstep ih => exact nonneg_step s1 s2 hstep ih

/-! ### Identity stability of referenced buffers -/

theorem identity_setBuf (s : BCache) (i : Nat) (b : Buf)
    (hdev : b.dev = (bufAt s i).dev) (hblk : b.blockno = (bufAt s i).blockno) :
    ∀ j, (bufAt (setBuf s i b) j).dev = (bufAt s j).dev ∧
      (bufAt (setBuf s i b) j).blockno = (bufAt s j).blockno := by
  intro j
  rcases bufAt_setBuf_cases s i b j with ⟨hji, _, heq⟩ | heq
  · subst hji
    rw [heq, hdev, hblk]
    exact ⟨rfl, rfl⟩
  · rw [heq]
    exact ⟨rfl, rfl⟩

theorem identity_bget (tid dev blockno i : Nat) (s s1 : BCache)
    (hbg : bget tid dev blockno s = some (i, s1)) (j : Nat)
    (hj : 0 < (bufAt s j).refcnt) :
    (bufAt s1 j).dev = (bufAt s j).dev ∧ (bufAt s1 j).blockno = (bufAt s j).blockno := by
  rcases bget_shape tid dev blockno i s s1 hbg with ⟨hfm, rfl⟩ | ⟨hfm, vb, hev, rfl⟩
  · exact identity_setBuf s i
      ({ bufAt s i with
          refcnt := ((bufAt s i).refcnt + 1) % UINT_MOD,
          used_tick := s.ticks, holder := some tid }) rfl rfl j
  · obtain ⟨hrc, hmem⟩ := evictScan_sel (bufAt s) s.buckets _ i vb hev
    have hji : j ≠ i := by
      intro hc
      subst hc
      rw [hrc] at hj
      exact lt_irrefl 0 hj
    rw [bufAt_withBuckets, bufAt_setBuf_ne s i j _ (Ne.symm hji)]
    exact ⟨rfl, rfl⟩

theorem identity_step (s s2 : BCache) (hstep : Step s s2) (j : Nat)
    (hj : 0 < (bufAt s j).refcnt) :
    (bufAt s2 j).dev = (bufAt s j).dev ∧ (bufAt s2 j).blockno = (bufAt s j).blockno := by
  cases hstep with
  | get tid dev blockno i _ _ hbg hfree => exact identity_bget tid dev blockno i s s2 hbg j hj
  | read tid dev blockno i _ _ hbr hfree =>
    rcases bread_shape tid dev blockno i _ _ hbr with ⟨s1, hg, rfl⟩
    have h1 := identity_bget tid dev blockno i s s1 hg j hj
    have h2 : ∀ y, (bufAt (breadFill dev blockno i s1) y).dev = (bufAt s1 y).dev ∧
        (bufAt (breadFill dev blockno i s1) y).blockno = (bufAt s1 y).blockno := by
      unfold breadFill
      by_cases hv : (bufAt s1 i).valid = true
      · rw [if_pos hv]
        exact fun y => ⟨rfl, rfl⟩
      · rw [if_neg hv]
        exact identity_setBuf s1 i
          ({ bufAt s1 i with data := s1.disk dev blockno, valid := true }) rfl rfl
    have h3 := identity_setBuf (breadFill dev blockno i s1) i
      ({ bufAt (breadFill dev blockno i s1) i with
         used_tick := (breadFill dev blockno i s1).ticks }) rfl rfl j
    exact ⟨h3.1.trans ((h2 j).1.trans h1.1), h3.2.trans ((h2 j).2.trans h1.2)⟩
  | write tid i _ _ hbw =>
    rcases bwrite_shape tid i _ _ hbw with ⟨hh, rfl⟩
    exact ⟨rfl, rfl⟩
  | rel tid i _ _ hbr =>
    rcases brelse_shape tid i _ _ hbr with ⟨hh, rfl⟩
    rw [bufAt_withBuckets]
    exact identity_setBuf s i
      ({ bufAt s i with
          holder := none,
          refcnt := ((bufAt s i).refcnt - 1) % UINT_MOD, used_tick := s.ticks }) rfl rfl j
  | pin i _ hi =>
    exact identity_setBuf s i
      (setRefcnt (bufAt s i) (((bufAt s i).refcnt + 1) % UINT_MOD)) rfl rfl j
  | unpin i _ hi =>
    exact identity_setBuf s i
      (setRefcnt (bufAt s i) (((bufAt s i).refcnt - 1) % UINT_MOD)) rfl rfl j
  | tick => exact ⟨rfl, rfl⟩

/-- C6: along every reachable state of the serialized public-operation
semantics, every buffer's reference count is nonnegative; an eviction scan
only ever selects a victim whose reference count is zero; and no step
changes the device/block identity of a buffer whose reference count is
positive. -/
theorem refcnt_invariant (nbuf : Nat) (s : BCache) (hr : Reachable nbuf s) :
    (∀ i, 0 ≤ (bufAt s i).refcnt) ∧
    (∀ cur v vb, evictScan (bufAt s) s.buckets cur = some (v, vb) →
      (bufAt s v).refcnt = 0) ∧
    (∀ s2, Step s s2 → ∀ j, 0 < (bufAt s j).refcnt →
      (bufAt s2 j).dev = (bufAt s j).dev ∧
      (bufAt s2 j).blockno = (bufAt s j).blockno) := by
  refine ⟨reachable_nonneg nbuf s hr, ?_, ?_⟩
  · intro cur v vb hev
    exact (evictScan_sel (bufAt s) s.buckets cur v vb hev).1
  · intro s2 hstep j hj
    exact identity_step s s2 hstep j hj

/-- Closed witness for `refcnt_invariant` at the initial state of a 30-buffer
pool. -/
theorem refcnt_invariant_witness : 0 ≤ (bufAt (binit 30) 0).refcnt :=
  (refcnt_invariant 30 (binit 30) Reachable.init).1 0

/-- C7 (counterexample): in the state produced by `binit` (here with the
standard pool size `NBUF = 30`), the distinct pool buffers 0 and 1 carry the
same (device, block number) identity (0, 0), and both are linked in bucket
lists — so two buffers represent the same pair at the same instant. -/
theorem binit_duplicate_identity_cex :
    (0 : Nat) ≠ 1 ∧
    (bufAt (binit 30) 0).dev = (bufAt (binit 30) 1).dev ∧
    (bufAt (binit 30) 0).blockno = (bufAt (binit 30) 1).blockno ∧
    0 ∈ (binit 30).buckets.getD 0 [] ∧
    1 ∈ (binit 30).buckets.getD 1 [] := by
  refine ⟨by decide, by rfl, by rfl, by decide, by decide⟩

/-- C7 (amended): in every reachable state of the serialized semantics, at
most one buffer per (device, block number) pair is marked valid: two valid
buffers with the same identity are the same buffer.  (The unrestricted
claim fails at `binit`, where all buffers share identity (0,0).) -/
theorem valid_identity_unique (nbuf : Nat) (s : BCache) (hr : Reachable nbuf s)
    (x y : Nat) (hx : (bufAt s x).valid = true) (hy : (bufAt s y).valid = true)
    (hdev : (bufAt s x).dev = (bufAt s y).dev)
    (hblk : (bufAt s x).blockno = (bufAt s y).blockno) : x = y := by
  have hINV := reachable_INV nbuf s hr
  have h1 := hINV.2.2 x (Or.inl hx)
  have h2 := hINV.2.2 y (Or.inl hy)
  rw [hdev, hblk] at h1
  rw [h2] at h1
  exact (Option.some.inj h1).symm

/-- The state reached from `binit 1` by one `read_block(0, 0)`: the single
buffer is valid, referenced and sleep-locked by thread 0. -/
def readState : BCache :=
  { bufs := [{ dev := 0, blockno := 0, valid := true, refcnt := 1,
               used_tick := 0, data := 0, holder := some 0 }],
    buckets := [[0], [], [], [], [], [], [], [], [], [], [], [], []],
    ticks := 0,
    disk := fun _ _ => 0 }

theorem readState_reachable : Reachable 1 readState :=
  Reachable.step Reachable.init
    (Step.read 0 0 0 0 (binit 1) readState (by rfl) (by rfl))

/-- Closed witness for `valid_identity_unique` at the reachable `readState`,
whose buffer 0 is valid. -/
theorem valid_identity_unique_witness :
    (bufAt readState 0).valid = true ∧ (0 : Nat) = 0 :=
  ⟨rfl, valid_identity_unique 1 readState readState_reachable 0 0 rfl rfl rfl rfl⟩

end MitOS
